import Mathlib

/-!
Verification of the KDP-Formatter / Book Factory content pipeline.

This file gives a shallow embedding, over `List Char` strings and explicit
state passing, of the core pipeline code:

  * `app/services/ingestion.py`   — `chunk_text`, `append_to_silo`,
    `classify_chunk` / `_parse_int`, `is_x_url`
  * `app/services/ingest_runner.py` — `run_ingest`
  * `app/services/source_queue.py`  — `queue_sources`
  * `app/services/x_client.py`      — `fetch_tweet_payload`
  * `app/services/autopilot.py`     — `run_autopilot`
  * `app/services/swarm.py`         — `run_swarm` / `_run_silo`
  * `app/services/metrics.py`       — `word_count`, `total_word_count`
  * `app/services/topic_utils.py`   — `text_mentions_term`
  * `app/services/storage.py`       — `SILO_TITLES`

Python strings are modelled as `List Char` (code points); Python's
whitespace handling is modelled over the ASCII whitespace characters.
External effects (HTTP fetches, model-backend calls, the relational store
and the per-topic filesystem) are modelled as explicit oracles and state
records threaded through the definitions.
-/

set_option autoImplicit false

namespace BookFactory

/-- A Python string, modelled as its list of characters. -/
abbrev PyStr := List Char

/-- Shorthand turning a Lean string literal into the `PyStr` model. -/
def pys (s : String) : PyStr := s.toList

/-- ASCII whitespace, as recognised by Python's `str.split()` / `str.strip()`
(`' '`, `'\t'`, `'\n'`, `'\r'`, `'\x0b'`, `'\x0c'`; the model is restricted
to ASCII text). -/
def pySpace (c : Char) : Bool :=
  c = ' ' || c = '\t' || c = '\n' || c = '\r' || c = '\x0b' || c = '\x0c'

/-- Helper for `countWords`: counts word starts while scanning; the flag
records whether the previous character was a non-space character. -/
def countWordsAux : Bool → PyStr → Nat
  | _, [] => 0
  | inWord, c :: rest =>
    if pySpace c then countWordsAux false rest
    else (if inWord then 0 else 1) + countWordsAux true rest

/-- `len(text.split())`: the number of maximal whitespace-free runs.
This is the word counter used by `app/services/metrics.py::word_count`
(there applied to a file's contents) and by the `too_short` gate in
`run_ingest`. -/
def countWords (s : PyStr) : Nat := countWordsAux false s

/-- Python `str.strip()`: drop leading and trailing whitespace. -/
def pyTrim (s : PyStr) : PyStr :=
  ((s.dropWhile pySpace).reverse.dropWhile pySpace).reverse

/-- Python `text.split("\n\n")`: split on leftmost non-overlapping
occurrences of a double newline (Python's `str.split` semantics: empty
components are kept, `"".split` gives `[""]`). The third case's `[]`
fallback is unreachable — `splitNN` never returns the empty list. -/
def splitNN : PyStr → List PyStr
  | [] => [[]]
  | [c] => [[c]]
  | a :: b :: rest =>
    if a = '\n' && b = '\n' then
      [] :: splitNN rest
    else
      match splitNN (b :: rest) with
      | comp :: comps => (a :: comp) :: comps
      | [] => [[a]]

/-- Join a list of strings with the `"\n\n"` separator (used both for the
running chunk buffer of `chunk_text` and for `"\n\n".join(thread)`-style
re-joining in specification statements). -/
def joinNN : List PyStr → PyStr
  | [] => []
  | [p] => p
  | p :: rest => p ++ '\n' :: '\n' :: joinNN rest

/-- The paragraph list of `chunk_text`:
`[p for p in text.split("\n\n") if p.strip()]`. -/
def pythonParas (text : PyStr) : List PyStr :=
  (splitNN text).filter (fun p => pyTrim p ≠ [])

/-- The accumulation loop of `ingestion.py::chunk_text`: greedy
paragraph-packing with running buffer `current` and output list `acc`
(kept in order). A flush appends `current.strip()`. -/
def chunkLoop (maxChars : Nat) : List PyStr → PyStr → List PyStr → List PyStr
  | [], current, acc =>
    if current ≠ [] then acc ++ [pyTrim current] else acc
  | para :: rest, current, acc =>
    if current.length + para.length + 2 > maxChars then
      chunkLoop maxChars rest para
        (if current ≠ [] then acc ++ [pyTrim current] else acc)
    else
      chunkLoop maxChars rest
        (if current ≠ [] then current ++ '\n' :: '\n' :: para else para) acc

/-- `ingestion.py::chunk_text(text, max_chars=3500)`. The `Chunk`
dataclass wrapper is dropped: a chunk is its text. -/
def chunk_text (text : PyStr) (maxChars : Nat := 3500) : List PyStr :=
  chunkLoop maxChars (pythonParas text) [] []

/-- Word character for the regex `\b` boundary in `_parse_int`
(`[A-Za-z0-9_]`; the model is restricted to ASCII text, Python's `re`
would also count non-ASCII word characters). -/
def wordChar (c : Char) : Bool := c.isAlphanum || c = '_'

/-- Match of the regex `\b(10|[0-9])\b` at the head of `l`, where `prev`
records whether the character immediately before `l` is a word character
(`false` at the start of the string). The alternative `10` is tried
before a single digit, as in the Python pattern. -/
def tokAt (prev : Bool) (l : PyStr) : Option Nat :=
  match l with
  | '1' :: '0' :: rest =>
    -- The single-digit alternative `1` cannot match here: the following
    -- `'0'` is a word character, so the trailing boundary would fail.
    if !prev && (rest = [] || !wordChar (rest.headD ' ')) then some 10
    else none
  | c :: rest =>
    if c.isDigit && !prev && (rest = [] || !wordChar (rest.headD ' ')) then
      some (c.toNat - 48)
    else none
  | [] => none

/-- `re.search(r"\b(10|[0-9])\b", s)`: scan left to right, return the
value of the first match. -/
def scanNum : Bool → PyStr → Option Nat
  | _, [] => none
  | prev, c :: rest =>
    match tokAt prev (c :: rest) with
    | some n => some n
    | none => scanNum (wordChar c) rest

/-- `ingestion.py::_parse_int` applied to a model response: the first
standalone `0`–`10` token of the response text, defaulting to `0` when
no such token occurs. -/
def parseSilo (response : PyStr) : Nat := (scanNum false response).getD 0

/-- Does `s` begin with `pat`? (helper for the Python `in` operator). -/
def startsList : PyStr → PyStr → Bool
  | [], _ => true
  | _ :: _, [] => false
  | a :: as, b :: bs => a = b && startsList as bs

/-- The Python substring test `pat in s`. -/
def hasSub (pat : PyStr) : PyStr → Bool
  | [] => startsList pat []
  | c :: t => startsList pat (c :: t) || hasSub pat t

/-- Python `str.lower()` (ASCII model). -/
def lowerStr (s : PyStr) : PyStr := s.map Char.toLower

/-- `topic_utils.py::text_mentions_term`: true when `terms` is empty, else
true iff some non-empty term occurs (case-insensitively) in the text. -/
def text_mentions_term (text : PyStr) (terms : List PyStr) : Bool :=
  if terms = [] then true
  else terms.any fun term => term ≠ [] && hasSub (lowerStr term) (lowerStr text)

/-- The contents of every chapter draft accumulator file, indexed by silo
number (`silo_dir(slug, n) / "draft.md"`). -/
def DraftState := Nat → PyStr

/-- `ingestion.py::append_to_silo`: append `"\n\n" + content.strip()` to the
chapter's draft accumulator file. -/
def append_to_silo (st : DraftState) (siloNumber : Nat) (content : PyStr) : DraftState :=
  fun i => if i = siloNumber then st i ++ '\n' :: '\n' :: pyTrim content else st i

/-- Modelled from the spec: `draft_paths(slug)` is imported by
`ingest_runner.py` from `app.services.storage` but the repository sources
do not contain its definition. Per the spec ("a total-across-all-chapters
word cap", data model: one draft accumulator per each of the 11 silos) and
consistently with `autopilot.py::_draft_wordcount_total`, it enumerates the
draft accumulator files of silos 0–10; so
`total_word_count([str(p) for p in draft_paths(slug)])` is the sum of the
word counts of the 11 chapter drafts. -/
def totalDraftWords (st : DraftState) : Nat :=
  ((List.range 11).map (fun i => countWords (st i))).sum

/-- An exception raised inside `run_ingest`'s per-source `try` block:
either a `ValueError` carrying its message, or any other exception
(network errors from the fetch, etc.). -/
inductive IngestExc where
  | valueError (msg : PyStr)
  | other
deriving DecidableEq

/-- The failure reason logged by `run_ingest`'s handler:
`str(exc) or "failed"` for a `ValueError`, `"failed"` otherwise. -/
def excReason : IngestExc → PyStr
  | .valueError msg => if msg = [] then pys "failed" else msg
  | .other => pys "failed"

/-- Configuration read by `run_ingest` from `settings` / runtime settings. -/
structure IngestCfg where
  minWords : Nat           -- settings.ingest_min_words
  maxPerSilo : Nat         -- draft_max_words_per_silo
  maxTotal : Nat           -- draft_max_words_total
  maxXCalls : Nat          -- settings.x_max_calls_per_run
  terms : List PyStr       -- normalize_terms(topic_name, topic_keywords)

/-- The model-backend oracle: the response text the Ollama client returns
for the classification prompt and for the extraction prompt built from a
chunk. (The prompts embed `chunk[:3000]` resp. `chunk[:3500]`; responses
are modelled as functions of the whole chunk.) -/
structure ModelOracle where
  classifyResp : PyStr → PyStr
  extractResp : PyStr → PyStr

/-- `ingestion.py::classify_chunk`: one model call, parsed by `_parse_int`. -/
def classify_chunk (o : ModelOracle) (chunk : PyStr) : Nat :=
  parseSilo (o.classifyResp chunk)

/-- Silo routing for one chunk: the forced silo pinned by a
`"cse:silo_N"` origin label when present, else the classification call. -/
def resolveSilo (o : ModelOracle) (forced : Option Nat) (chunk : PyStr) : Nat :=
  match forced with
  | some n => n
  | none => classify_chunk o chunk

/-- The per-chunk loop of `run_ingest`: for each chunk, check the total
draft cap, then resolve the silo (forced label or classification call),
then check that silo's cap, then extract and append. Returns the draft
state reached (file appends persist even when a later chunk raises) and
the `ValueError` message when the loop raised. -/
def processChunks (cfg : IngestCfg) (o : ModelOracle) (forced : Option Nat) :
    List PyStr → DraftState → DraftState × Option PyStr
  | [], st => (st, none)
  | chunk :: rest, st =>
    if cfg.maxTotal ≤ totalDraftWords st then (st, some (pys "draft_total_cap"))
    else
      if cfg.maxPerSilo ≤ countWords (st (resolveSilo o forced chunk)) then
        (st, some (pys "draft_silo_cap"))
      else
        processChunks cfg o forced rest
          (append_to_silo st (resolveSilo o forced chunk) (o.extractResp chunk))

/-- One pending source, as `run_ingest` sees it. `forced` abstracts the
parse of a `"cse:silo_N"` origin label into a pinned silo number;
`fetched` is the outcome of `fetch_and_clean(source.url)` (cleaned text,
or the exception it raised). -/
structure SrcIn where
  isX : Bool
  forced : Option Nat
  fetched : Except IngestExc PyStr

/-- The body of `run_ingest`'s per-source `try` block: fetch, minimum-word
gate, topic-term gate, chunk, then the per-chunk cap/classify/extract loop.
Returns the resulting draft state and the exception raised, if any. -/
def processSource (cfg : IngestCfg) (o : ModelOracle) (s : SrcIn) (st : DraftState) :
    DraftState × Option IngestExc :=
  match s.fetched with
  | .error exc => (st, some exc)
  | .ok text =>
    if countWords text < cfg.minWords then (st, some (.valueError (pys "too_short")))
    else if cfg.terms ≠ [] && !text_mentions_term (text.take 8000) cfg.terms then
      (st, some (.valueError (pys "off_topic")))
    else
      match processChunks cfg o s.forced (chunk_text text) st with
      | (st', none) => (st', none)
      | (st', some msg) => (st', some (.valueError msg))

/-- The final status of a `SourceDoc` row after a run (a skipped source
keeps its `pending` status). -/
inductive SrcStatus where
  | pending
  | extracted
  | failed (reason : PyStr)
deriving DecidableEq

/-- Aggregate statistics returned by `run_ingest` (the wall-clock
`duration_seconds` field is not modelled). -/
structure IngestStats where
  processed : Nat
  extracted : Nat
  failed : Nat
  xCalls : Nat
deriving DecidableEq

/-- The source loop of `run_ingest`: skip (leaving `pending`) a social
source once the per-run social-call budget is exhausted; otherwise count it
as processed and run the body, recording `extracted` (bumping the social
counter for social sources) or `failed` with the logged reason. The
ingest-log appends are modelled as infallible. Per-source commits mean the
draft state threads through failures unchanged only up to the appends
already performed. -/
def runIngestLoop (cfg : IngestCfg) (o : ModelOracle) :
    List SrcIn → DraftState → IngestStats → IngestStats × DraftState × List SrcStatus
  | [], st, acc => (acc, st, [])
  | s :: rest, st, acc =>
    if s.isX && cfg.maxXCalls ≤ acc.xCalls then
      let r := runIngestLoop cfg o rest st acc
      (r.1, r.2.1, .pending :: r.2.2)
    else
      match processSource cfg o s st with
      | (st', none) =>
        let acc' : IngestStats :=
          { processed := acc.processed + 1, extracted := acc.extracted + 1,
            failed := acc.failed, xCalls := acc.xCalls + (if s.isX then 1 else 0) }
        let r := runIngestLoop cfg o rest st' acc'
        (r.1, r.2.1, .extracted :: r.2.2)
      | (st', some exc) =>
        let acc' : IngestStats :=
          { processed := acc.processed + 1, extracted := acc.extracted,
            failed := acc.failed + 1, xCalls := acc.xCalls }
        let r := runIngestLoop cfg o rest st' acc'
        (r.1, r.2.1, .failed (excReason exc) :: r.2.2)

/-- `ingest_runner.py::run_ingest`: process every pending source of the
topic, returning the run statistics, the final draft accumulators and the
final status of each source. -/
def run_ingest (cfg : IngestCfg) (o : ModelOracle) (sources : List SrcIn)
    (st : DraftState) : IngestStats × DraftState × List SrcStatus :=
  runIngestLoop cfg o sources st ⟨0, 0, 0, 0⟩

/-- An element of the `urls` argument of `queue_sources`: a bare URL, or a
`(url, label)` tuple. -/
inductive QItem where
  | plain (url : PyStr)
  | labeled (url : PyStr) (label : PyStr)
deriving DecidableEq

/-- The URL of a queue item. -/
def itemUrl : QItem → PyStr
  | .plain u => u
  | .labeled u _ => u

/-- The origin label of a queue item (`source_label` for bare URLs). -/
def itemLabel (defaultLabel : PyStr) : QItem → PyStr
  | .plain _ => defaultLabel
  | .labeled _ l => l

/-- A `SourceDoc` row of one topic, as created by `queue_sources`. -/
structure SRow where
  url : PyStr
  domain : PyStr
  status : SrcStatus
  label : PyStr
deriving DecidableEq

/-- The filter loop of `queue_sources`: keep, in input order, the items
whose URL is not in the existing set, paired with their labels. Items
repeated within the batch are all kept — only the fixed `existing`
snapshot is consulted. -/
def queueFilter (existing : List PyStr) (sourceLabel : PyStr)
    (items : List QItem) : List (PyStr × PyStr) :=
  items.filterMap fun it =>
    if itemUrl it ∈ existing then none
    else some (itemUrl it, itemLabel sourceLabel it)

/-- `source_queue.py::queue_sources` for one topic. `store` is the topic's
current `SourceDoc` rows; `domainOf` abstracts `urlparse(url).netloc`. The
existing-URL set skips falsy (empty) URLs, mirroring
`{row[0] for row in result.all() if row[0]}`; candidate items are filtered
against that fixed snapshot only, in input order. The append-only inbox
log write (`append_sources`) has no effect on the store and is not
modelled. Returns the new store and the count added. -/
def queue_sources (domainOf : PyStr → PyStr) (store : List SRow)
    (items : List QItem) (sourceLabel : PyStr) : List SRow × Nat :=
  if items = [] then (store, 0)
  else
    let existing := (store.map SRow.url).filter (fun u => u ≠ [])
    let newUrls := queueFilter existing sourceLabel items
    if newUrls = [] then (store, 0)
    else
      (store ++ newUrls.map (fun p => ⟨p.1, domainOf p.1, .pending, p.2⟩),
       newUrls.length)

/-- The `data` object of an X API tweet response (`resp.json().get("data")`).
The `entities.urls` extraction of the source is not modelled (no claim
touches it). -/
structure TweetData where
  text : PyStr
  authorId : Option PyStr
  conversationId : Option PyStr
deriving DecidableEq

/-- One HTTP response from the X API transport: status code, the
`x-rate-limit-reset` header if present, and the parsed body. -/
structure XResp where
  status : Nat
  resetHeader : Option PyStr
  tweet : Option TweetData
deriving DecidableEq

/-- Python `str.isdigit()` (ASCII model): non-empty and all digits. -/
def isDigitStr (s : PyStr) : Bool := s ≠ [] && s.all Char.isDigit

/-- Decimal value of a digit string (Python `int(s)` on an `isdigit` string). -/
def decToNat (s : PyStr) : Nat := s.foldl (fun n c => n * 10 + (c.toNat - 48)) 0

/-- The payload dict `fetch_tweet_payload` builds from a response
(`data.get("data") or {}` with `.get` defaults). -/
structure TweetPayload where
  text : PyStr
  authorId : Option PyStr
  conversationId : Option PyStr
deriving DecidableEq

/-- Build the returned payload from a response body. -/
def payloadOf (r : XResp) : TweetPayload :=
  match r.tweet with
  | none => ⟨[], none, none⟩
  | some d => ⟨d.text, d.authorId, d.conversationId⟩

/-- Observable outcome of one `fetch_tweet_payload` call: the returned
payload or the status on which `raise_for_status` raised, the number of
transport requests issued, and the durations slept for rate-limit backoff
(in seconds, possibly clamped). -/
structure XCallOut where
  result : Except Nat TweetPayload
  calls : Nat
  sleeps : List Int

/-- `resp.raise_for_status()` then payload extraction: an HTTP error status
(4xx/5xx) raises, anything else returns the payload. -/
def finishX (r : XResp) (calls : Nat) (sleeps : List Int) : XCallOut :=
  if 400 ≤ r.status then ⟨.error r.status, calls, sleeps⟩
  else ⟨.ok (payloadOf r), calls, sleeps⟩

/-- `x_client.py::fetch_tweet_payload`: issue the request (`r1` is the
transport's first response); on a 429 whose `x-rate-limit-reset` header is
a digit string, sleep `max(0, reset - now + 1)` seconds and issue the
request once more (`r2`), then `raise_for_status` on whichever response is
current. `now` is `int(time.time())` at the check. The module-level
minimum-spacing sleep before the first request (`_last_call_ts`) only
delays the call and is not modelled. -/
def fetch_tweet_payload (now : Nat) (r1 r2 : XResp) : XCallOut :=
  if r1.status = 429 then
    match r1.resetHeader with
    | some h =>
      if isDigitStr h then
        finishX r2 2 [max 0 ((decToNat h : Int) - (now : Int) + 1)]
      else finishX r1 1 []
    | none => finishX r1 1 []
  else finishX r1 1 []

/-- What one autopilot cycle observes and produces: whether the stop
sentinel exists when the cycle begins, how many sources the discovery +
queueing phase added, the candidate count, the ingestion stats of the
cycle, and the recomputed total draft word count. -/
structure CycleEnv where
  stopAtStart : Bool
  queued : Nat
  candidates : Nat
  processed : Nat
  draftWords : Nat
deriving DecidableEq

/-- The immutable cycle record appended to `autopilot.jsonl` (timestamp,
duration and the pending counts are not modelled). -/
structure CycleRec where
  cycle : Nat
  queued : Nat
  candidates : Nat
  draftWords : Nat
deriving DecidableEq

/-- Why `run_autopilot` stopped iterating. -/
inductive StopReason where
  | sentinel
  | wordTarget
  | converged
  | exhausted
deriving DecidableEq

/-- The record written for an executed cycle. -/
def mkRec (c : Nat) (e : CycleEnv) : CycleRec := ⟨c, e.queued, e.candidates, e.draftWords⟩

/-- The post-cycle word-target test
`stop_wordcount and draft_words >= stop_wordcount` (Python truthiness:
`None` and `0` are falsy). -/
def wordHit (sw : Option Nat) (e : CycleEnv) : Bool :=
  match sw with
  | some w => decide (w ≠ 0) && decide (w ≤ e.draftWords)
  | none => false

/-- The post-cycle convergence test
`stop_on_no_new and queued == 0 and ingest_stats["processed"] == 0`. -/
def noNewHit (stopOnNoNew : Bool) (e : CycleEnv) : Bool :=
  stopOnNoNew && decide (e.queued = 0) && decide (e.processed = 0)

/-- Either post-cycle stop test. -/
def midStop (sw : Option Nat) (stopOnNoNew : Bool) (e : CycleEnv) : Bool :=
  wordHit sw e || noNewHit stopOnNoNew e

/-- The `for cycle in range(1, max_cycles + 1)` loop of `run_autopilot`
over the remaining cycle indices: break before doing any work when the
stop sentinel exists; otherwise run the cycle (appending its record and
refreshing the status snapshot), then break on the word target or on
convergence. The sliced cooldown sleep between cycles changes no modelled
state (a sentinel appearing mid-cooldown is seen as `stopAtStart` of the
next cycle) and is not modelled. -/
def apLoop (env : Nat → CycleEnv) (sw : Option Nat) (stopOnNoNew : Bool) :
    List Nat → List CycleRec × StopReason
  | [] => ([], .exhausted)
  | c :: rest =>
    if (env c).stopAtStart then ([], .sentinel)
    else if wordHit sw (env c) then ([mkRec c (env c)], .wordTarget)
    else if noNewHit stopOnNoNew (env c) then ([mkRec c (env c)], .converged)
    else
      let r := apLoop env sw stopOnNoNew rest
      (mkRec c (env c) :: r.1, r.2)

/-- Observable outcome of `run_autopilot`: the cycle log, why the loop
stopped, the `running` flag of the status snapshot written on exit, and
whether the stop sentinel file remains after exit. -/
structure AutoOut where
  records : List CycleRec
  reason : StopReason
  finalRunning : Bool
  sentinelAfter : Bool
deriving DecidableEq

/-- `autopilot.py::run_autopilot`: run up to `maxCycles` cycles (indices
`1..maxCycles`); on exit, always write a `{"running": False}` status
snapshot and unlink the stop sentinel if it exists. -/
def run_autopilot (env : Nat → CycleEnv) (maxCycles : Nat) (sw : Option Nat)
    (stopOnNoNew : Bool) : AutoOut :=
  let r := apLoop env sw stopOnNoNew (List.range' 1 maxCycles)
  ⟨r.1, r.2, false, false⟩

/-- `storage.py::SILO_TITLES`: the fixed taxonomy of 11 chapter buckets
(insertion order preserved, as for a Python dict). -/
def SILO_TITLES : List (Nat × String) :=
  [(0, "Unclassified"),
   (1, "The Why Now Brief"),
   (2, "The 1-Hour Quick Start"),
   (3, "Core Concepts Without the Fluff"),
   (4, "Step-By-Step Build"),
   (5, "Real-World Use Cases"),
   (6, "Gotchas, Fail States, Troubleshooting"),
   (7, "Security, Privacy, Risks, Compliance"),
   (8, "Performance, Scale, Cost Control"),
   (9, "Tooling, Templates, Checklists"),
   (10, "Roadmap, What\x27s Next, Series Hooks")]

/-- The chapter selection of `run_swarm`:
`list(silos) if silos else list(SILO_TITLES.keys())` — a `None` or empty
selection (both falsy) selects every silo of the taxonomy. -/
def selectSilos : Option (List Nat) → List Nat
  | some (s :: rest) => s :: rest
  | _ => SILO_TITLES.map Prod.fst

/-- The per-silo swarm artifacts on disk, indexed by silo number:
`swarm_draft.md`, its backup `swarm_draft.prev.md`, `swarm_review.json`
and the sources manifest. `none` = the file does not exist. -/
structure SwarmFiles where
  draft : Nat → Option PyStr
  prevDraft : Nat → Option PyStr
  review : Nat → Option PyStr
  sourcesDoc : Nat → Option PyStr

/-- Oracle for one swarm run. `chapterText s` is the outcome of the
per-silo pipeline up to and including the `_write_chapter` model call
(context building, research memo, prose generation); `.error` models an
exception raised anywhere in that span, i.e. before any artifact write.
`reviewDoc` and `sourcesPayload` are the serialized review JSON and
sources manifest subsequently written. -/
structure SwarmEnv where
  chapterText : Nat → Except PyStr PyStr
  reviewDoc : Nat → PyStr
  sourcesPayload : Nat → PyStr

/-- The per-chapter result record appended to the swarm log (only the
fields the claims mention are modelled). -/
structure SwarmRecord where
  silo : Nat
  wordCount : Nat
deriving DecidableEq

/-- Point update of a per-silo file map. -/
def updateAt (f : Nat → Option PyStr) (k : Nat) (v : PyStr) : Nat → Option PyStr :=
  fun i => if i = k then some v else f i

/-- `swarm.py::_run_silo`: generate the chapter text; if that raises, the
task ends with the exception and no artifact is touched. On success: back
up a pre-existing draft artifact, overwrite the draft with the stripped
chapter text, write the review and the sources manifest, and return the
result record (`word_count` is `len(chapter_text.split())`). -/
def runSilo (env : SwarmEnv) (fs : SwarmFiles) (silo : Nat) :
    SwarmFiles × Except PyStr SwarmRecord :=
  match env.chapterText silo with
  | .error e => (fs, .error e)
  | .ok text =>
    let fs1 := match fs.draft silo with
      | some old => { fs with prevDraft := updateAt fs.prevDraft silo old }
      | none => fs
    let fs2 := { fs1 with draft := updateAt fs1.draft silo (pyTrim text) }
    let fs3 := { fs2 with review := updateAt fs2.review silo (env.reviewDoc silo) }
    let fs4 := { fs3 with sourcesDoc := updateAt fs3.sourcesDoc silo (env.sourcesPayload silo) }
    (fs4, .ok ⟨silo, countWords text⟩)

/-- The task batch of `run_swarm`: one `_run_silo` task per selected silo.
`asyncio.gather(..., return_exceptions=True)` yields the per-task outcomes
in input order and never aborts the batch; since each task writes only its
own silo's artifact paths, threading the file state sequentially is an
equivalent serialization of the bounded-concurrency execution. -/
def runSwarmLoop (env : SwarmEnv) :
    List Nat → SwarmFiles → SwarmFiles × List (Except PyStr SwarmRecord)
  | [], fs => (fs, [])
  | s :: rest, fs =>
    let r := runSilo env fs s
    let rr := runSwarmLoop env rest r.1
    (rr.1, r.2 :: rr.2)

/-- Observable outcome of `run_swarm`. -/
structure SwarmOut where
  files : SwarmFiles
  completed : List SwarmRecord
  errors : List PyStr
  count : Nat

/-- A gather outcome kept in `completed` (a non-exception result). -/
def swarmOk : Except PyStr SwarmRecord → Option SwarmRecord
  | .ok r => some r
  | .error _ => none

/-- A gather outcome kept in `errors` (`str(result)` of an exception). -/
def swarmErr : Except PyStr SwarmRecord → Option PyStr
  | .ok _ => none
  | .error e => some e

/-- `swarm.py::run_swarm`: select the chapters (all 11 when the selection
is falsy), run one drafting task per selected chapter, and partition the
outcomes into `completed` records and `errors`. (`ensure_briefs` performs
an idempotent row upsert that touches none of the state modelled here.) -/
def run_swarm (env : SwarmEnv) (fs : SwarmFiles) (silos : Option (List Nat)) : SwarmOut :=
  let selected := selectSilos silos
  let r := runSwarmLoop env selected fs
  let completed := r.2.filterMap swarmOk
  let errors := r.2.filterMap swarmErr
  ⟨r.1, completed, errors, completed.length⟩

/-! ### Supporting lemmas -/

theorem runSwarmLoop_length (env : SwarmEnv) :
    ∀ (sel : List Nat) (fs : SwarmFiles),
      (runSwarmLoop env sel fs).2.length = sel.length := by
  intro sel
  induction sel with
  | nil => intro fs; rfl
  | cons s rest ih =>
    intro fs
    simp only [runSwarmLoop, List.length_cons]
    rw [ih]

theorem filterMap_ok_err_length (l : List (Except PyStr SwarmRecord)) :
    (l.filterMap swarmOk).length + (l.filterMap swarmErr).length = l.length := by
  induction l with
  | nil => rfl
  | cons x rest ih =>
    cases x with
    | ok r => simp [List.filterMap_cons, swarmOk, swarmErr]; omega
    | error e => simp [List.filterMap_cons, swarmOk, swarmErr]; omega

/-! ### Claim C10 — empty swarm selection drafts all 11 silos -/

/-- Claim C10: calling `run_swarm` with an empty chapter selection
(`silos=None` or `silos=[]`, both falsy) selects every chapter of the
fixed taxonomy: the selection is exactly silos 0 through 10 of
`SILO_TITLES`, and one drafting task outcome is produced per each of the
11 silos. -/
theorem run_swarm_empty_selection_all_silos (env : SwarmEnv) (fs : SwarmFiles) :
    selectSilos none = [0, 1, 2, 3, 4, 5, 6, 7, 8, 9, 10]
    ∧ selectSilos (some []) = [0, 1, 2, 3, 4, 5, 6, 7, 8, 9, 10]
    ∧ SILO_TITLES.length = 11
    ∧ (runSwarmLoop env (selectSilos none) fs).2.length = 11
    ∧ (run_swarm env fs none).completed.length + (run_swarm env fs none).errors.length = 11 := by
  refine ⟨rfl, rfl, rfl, ?_, ?_⟩
  · rw [runSwarmLoop_length]; rfl
  · simp only [run_swarm]
    rw [filterMap_ok_err_length, runSwarmLoop_length]
    rfl

/-! ### Claim C4 — rate-limit backoff of the X client -/

theorem finishX_calls (r : XResp) (c : Nat) (s : List Int) : (finishX r c s).calls = c := by
  unfold finishX; split <;> rfl

theorem finishX_sleeps (r : XResp) (c : Nat) (s : List Int) : (finishX r c s).sleeps = s := by
  unfold finishX; split <;> rfl

/-- Claim C4, counterexample: a rate-limited (429) response that carries no
`x-rate-limit-reset` header is surfaced as a failure after a single
transport invocation — the client does not retry, even though a successful
response would have followed, contradicting "retries exactly once ...
having invoked the underlying transport exactly twice". -/
theorem fetch_tweet_payload_no_hint_counterexample :
    (fetch_tweet_payload 0 ⟨429, none, none⟩
        ⟨200, none, some ⟨pys "ok", none, none⟩⟩).calls = 1
    ∧ (fetch_tweet_payload 0 ⟨429, none, none⟩
        ⟨200, none, some ⟨pys "ok", none, none⟩⟩).result = .error 429
    ∧ (1 : Nat) ≠ 2 := by
  refine ⟨rfl, rfl, by decide⟩

/-- Claim C4, amended: when a rate-limited (429) response carries a numeric
reset-time header, the client sleeps `max(0, reset − now + 1)` (clamped to
non-negative) and retries exactly once; a second rate-limited response is
surfaced as a failure, while a normal second response yields the successful
payload, the transport having been invoked exactly twice. A 429 without a
numeric reset header is surfaced as a failure immediately, and no call ever
invokes the transport more than twice. -/
theorem fetch_tweet_payload_retry_once (now : Nat) (r1 r2 : XResp) (h : PyStr)
    (h429 : r1.status = 429) (hh : r1.resetHeader = some h)
    (hd : isDigitStr h = true) :
    (fetch_tweet_payload now r1 r2).calls = 2
    ∧ (fetch_tweet_payload now r1 r2).sleeps = [max 0 ((decToNat h : Int) - (now : Int) + 1)]
    ∧ (∀ s ∈ (fetch_tweet_payload now r1 r2).sleeps, 0 ≤ s)
    ∧ (r2.status = 429 → (fetch_tweet_payload now r1 r2).result = .error 429)
    ∧ (r2.status < 400 → (fetch_tweet_payload now r1 r2).result = .ok (payloadOf r2))
    ∧ (∀ (now' : Nat) (r1' r2' : XResp), (fetch_tweet_payload now' r1' r2').calls ≤ 2) := by
  have hfe : fetch_tweet_payload now r1 r2
      = finishX r2 2 [max 0 ((decToNat h : Int) - (now : Int) + 1)] := by
    unfold fetch_tweet_payload
    rw [h429, hh]
    simp [hd]
  refine ⟨?_, ?_, ?_, ?_, ?_, ?_⟩
  · rw [hfe, finishX_calls]
  · rw [hfe, finishX_sleeps]
  · rw [hfe, finishX_sleeps]
    intro s hs
    rw [List.mem_singleton] at hs
    subst hs
    exact le_max_left 0 _
  · intro h2
    rw [hfe]
    unfold finishX
    rw [h2]
    simp
  · intro h2
    rw [hfe]
    unfold finishX
    rw [if_neg (by omega)]
  · intro now' r1' r2'
    unfold fetch_tweet_payload
    split
    · split
      · split
        · rw [finishX_calls]
        · rw [finishX_calls]; omega
      · rw [finishX_calls]; omega
    · rw [finishX_calls]; omega

/-- Claim C4, witness: a concrete 429 with reset hint `7` at `now = 5`,
followed by a 200 carrying a payload: the client sleeps 3 seconds, calls
the transport twice, and returns the payload. -/
theorem fetch_tweet_payload_retry_once_witness :
    (fetch_tweet_payload 5 ⟨429, some (pys "7"), none⟩
        ⟨200, none, some ⟨pys "t", none, none⟩⟩).calls = 2
    ∧ (fetch_tweet_payload 5 ⟨429, some (pys "7"), none⟩
        ⟨200, none, some ⟨pys "t", none, none⟩⟩).sleeps
      = [max 0 ((decToNat (pys "7") : Int) - (5 : Int) + 1)]
    ∧ (fetch_tweet_payload 5 ⟨429, some (pys "7"), none⟩
        ⟨200, none, some ⟨pys "t", none, none⟩⟩).result
      = .ok (payloadOf ⟨200, none, some ⟨pys "t", none, none⟩⟩) := by
  have h := fetch_tweet_payload_retry_once 5 ⟨429, some (pys "7"), none⟩
    ⟨200, none, some ⟨pys "t", none, none⟩⟩ (pys "7") rfl rfl (by decide)
  exact ⟨h.1, h.2.1, h.2.2.2.2.1 (by decide)⟩

/-! ### Claim C2 — source-queue deduplication -/

theorem queueFilter_cons_mem (ex : List PyStr) (lbl : PyStr) (it : QItem)
    (rest : List QItem) (h : itemUrl it ∈ ex) :
    queueFilter ex lbl (it :: rest) = queueFilter ex lbl rest := by
  simp [queueFilter, List.filterMap_cons, h]

theorem queueFilter_cons_new (ex : List PyStr) (lbl : PyStr) (it : QItem)
    (rest : List QItem) (h : itemUrl it ∉ ex) :
    queueFilter ex lbl (it :: rest)
      = (itemUrl it, itemLabel lbl it) :: queueFilter ex lbl rest := by
  simp [queueFilter, List.filterMap_cons, h]

theorem queueFilter_fst_sublist (ex : List PyStr) (lbl : PyStr) :
    ∀ items : List QItem,
      ((queueFilter ex lbl items).map Prod.fst).Sublist (items.map itemUrl) := by
  intro items
  induction items with
  | nil => simp [queueFilter]
  | cons it rest ih =>
    by_cases h : itemUrl it ∈ ex
    · rw [queueFilter_cons_mem ex lbl it rest h, List.map_cons]
      exact ih.cons (itemUrl it)
    · rw [queueFilter_cons_new ex lbl it rest h, List.map_cons, List.map_cons]
      exact ih.cons₂ (itemUrl it)

theorem mem_queueFilter_fst (ex : List PyStr) (lbl : PyStr) :
    ∀ (items : List QItem) (u : PyStr),
      u ∈ (queueFilter ex lbl items).map Prod.fst →
      u ∉ ex ∧ ∃ it ∈ items, itemUrl it = u := by
  intro items
  induction items with
  | nil => intro u hu; simp [queueFilter] at hu
  | cons it rest ih =>
    intro u hu
    by_cases h : itemUrl it ∈ ex
    · rw [queueFilter_cons_mem ex lbl it rest h] at hu
      obtain ⟨hn, it', hm, he⟩ := ih u hu
      exact ⟨hn, it', List.mem_cons_of_mem _ hm, he⟩
    · rw [queueFilter_cons_new ex lbl it rest h, List.map_cons, List.mem_cons] at hu
      rcases hu with hu | hu
      · subst hu; exact ⟨h, it, List.mem_cons_self _ _, rfl⟩
      · obtain ⟨hn, it', hm, he⟩ := ih u hu
        exact ⟨hn, it', List.mem_cons_of_mem _ hm, he⟩

theorem queueFilter_keeps (ex : List PyStr) (lbl : PyStr) :
    ∀ (items : List QItem) (it : QItem), it ∈ items → itemUrl it ∉ ex →
      itemUrl it ∈ (queueFilter ex lbl items).map Prod.fst := by
  intro items
  induction items with
  | nil => intro it h; simp at h
  | cons it0 rest ih =>
    intro it hm hn
    rw [List.mem_cons] at hm
    by_cases h0 : itemUrl it0 ∈ ex
    · rw [queueFilter_cons_mem ex lbl it0 rest h0]
      rcases hm with hm | hm
      · subst hm; exact absurd h0 hn
      · exact ih it hm hn
    · rw [queueFilter_cons_new ex lbl it0 rest h0, List.map_cons]
      rcases hm with hm | hm
      · subst hm; exact List.mem_cons_self _ _
      · exact List.mem_cons_of_mem _ (ih it hm hn)

theorem queueFilter_nil (ex : List PyStr) (lbl : PyStr) :
    ∀ items : List QItem, (∀ it ∈ items, itemUrl it ∈ ex) →
      queueFilter ex lbl items = [] := by
  intro items
  induction items with
  | nil => intro _; rfl
  | cons it rest ih =>
    intro h
    rw [queueFilter_cons_mem ex lbl it rest (h it (List.mem_cons_self _ _))]
    exact ih fun it' h' => h it' (List.mem_cons_of_mem _ h')

/-- Claim C2, counterexample: a single `queue_sources` call whose input
list repeats a URL inserts one row per occurrence — the batch is only
filtered against the pre-existing URL snapshot, so the store ends up with
two rows for the same (topic, url) pair. -/
theorem queue_sources_duplicate_counterexample :
    (queue_sources (fun _ => []) [] [.plain (pys "u"), .plain (pys "u")] (pys "discovery")).2 = 2
    ∧ ((queue_sources (fun _ => []) [] [.plain (pys "u"), .plain (pys "u")]
        (pys "discovery")).1.map SRow.url) = [pys "u", pys "u"]
    ∧ ¬ (((queue_sources (fun _ => []) [] [.plain (pys "u"), .plain (pys "u")]
        (pys "discovery")).1.map SRow.url).Nodup) := by
  refine ⟨rfl, rfl, ?_⟩
  intro h
  have : ([pys "u", pys "u"] : List PyStr).Nodup := by
    have he : ((queue_sources (fun _ => []) [] [.plain (pys "u"), .plain (pys "u")]
        (pys "discovery")).1.map SRow.url) = [pys "u", pys "u"] := rfl
    rwa [he] at h
  simp at this

/-- Claim C2, amended: for calls whose input list carries no repeated URL
and only non-empty URLs, and a store with at most one row per URL, the
store still has at most one row per URL after the call, every input URL is
present afterwards, and repeating the same call returns 0 added and leaves
the store unchanged. (A URL repeated inside one call's list is inserted
once per occurrence, and empty URLs are invisible to the dedup snapshot —
the original claim fails there.) -/
theorem queue_sources_dedup (domainOf : PyStr → PyStr) (store : List SRow)
    (items : List QItem) (lbl : PyStr)
    (hnd : (items.map itemUrl).Nodup)
    (hne : ∀ it ∈ items, itemUrl it ≠ [])
    (hstore : (store.map SRow.url).Nodup) :
    (((queue_sources domainOf store items lbl).1.map SRow.url).Nodup)
    ∧ (∀ it ∈ items, itemUrl it ∈ (queue_sources domainOf store items lbl).1.map SRow.url)
    ∧ queue_sources domainOf (queue_sources domainOf store items lbl).1 items lbl
      = ((queue_sources domainOf store items lbl).1, 0) := by
  by_cases hitems : items = []
  · subst hitems
    refine ⟨?_, ?_, ?_⟩
    · simpa [queue_sources] using hstore
    · intro it h; simp at h
    · simp [queue_sources]
  · have hq : queue_sources domainOf store items lbl
        = (if queueFilter ((store.map SRow.url).filter (fun u => u ≠ [])) lbl items = []
           then (store, 0)
           else (store ++ (queueFilter ((store.map SRow.url).filter (fun u => u ≠ [])) lbl
                    items).map (fun p => ⟨p.1, domainOf p.1, .pending, p.2⟩),
                 (queueFilter ((store.map SRow.url).filter (fun u => u ≠ [])) lbl items).length)) := by
      simp [queue_sources, hitems]
    set ex := (store.map SRow.url).filter (fun u => u ≠ []) with hex
    by_cases hnew : queueFilter ex lbl items = []
    · rw [hq, if_pos hnew]
      have hall : ∀ it ∈ items, itemUrl it ∈ store.map SRow.url := by
        intro it hm
        by_cases hmem : itemUrl it ∈ ex
        · rw [hex] at hmem
          exact (List.mem_filter.mp hmem).1
        · exfalso
          have := queueFilter_keeps ex lbl items it hm hmem
          rw [hnew] at this
          simp at this
      refine ⟨hstore, hall, ?_⟩
      rw [hq, if_pos hnew]
    · rw [hq, if_neg hnew]
      have hmapurl : ((queueFilter ex lbl items).map
          (fun p : PyStr × PyStr => (⟨p.1, domainOf p.1, .pending, p.2⟩ : SRow))).map SRow.url
          = (queueFilter ex lbl items).map Prod.fst := by
        rw [List.map_map]; rfl
      have hfstnd : ((queueFilter ex lbl items).map Prod.fst).Nodup :=
        hnd.sublist (queueFilter_fst_sublist ex lbl items)
      have hdisj : ∀ u ∈ store.map SRow.url,
          u ∉ (queueFilter ex lbl items).map Prod.fst := by
        intro u hu hmem
        obtain ⟨hnex, it, hit, heq⟩ := mem_queueFilter_fst ex lbl items u hmem
        apply hnex
        rw [hex]
        refine List.mem_filter.mpr ⟨hu, ?_⟩
        subst heq
        simpa using hne it hit
      have hurls : ((store ++ (queueFilter ex lbl items).map
          (fun p : PyStr × PyStr => (⟨p.1, domainOf p.1, .pending, p.2⟩ : SRow))).map SRow.url)
          = store.map SRow.url ++ (queueFilter ex lbl items).map Prod.fst := by
        rw [List.map_append, hmapurl]
      have hmem1 : ∀ it ∈ items, itemUrl it ∈
          store.map SRow.url ++ (queueFilter ex lbl items).map Prod.fst := by
        intro it hm
        by_cases hmem : itemUrl it ∈ ex
        · rw [hex] at hmem
          exact List.mem_append_left _ (List.mem_filter.mp hmem).1
        · exact List.mem_append_right _ (queueFilter_keeps ex lbl items it hm hmem)
      refine ⟨?_, ?_, ?_⟩
      · rw [hurls]
        exact List.nodup_append.mpr ⟨hstore, hfstnd, fun u hu => hdisj u hu⟩
      · intro it hm
        rw [hurls]
        exact hmem1 it hm
      · have hnil2 : queueFilter (((store ++ (queueFilter ex lbl items).map
            (fun p : PyStr × PyStr => (⟨p.1, domainOf p.1, .pending, p.2⟩ : SRow))).map
            SRow.url).filter (fun u => u ≠ [])) lbl items = [] := by
          apply queueFilter_nil
          intro it hm
          refine List.mem_filter.mpr ⟨?_, ?_⟩
          · rw [hurls]; exact hmem1 it hm
          · simpa using hne it hm
        simp only [queue_sources, hitems, if_neg hitems, hnil2]
        simp

/-- Claim C2, witness: queueing two distinct non-empty URLs into an empty
store keeps URLs unique, records both, and a repeat of the same call adds
nothing. -/
theorem queue_sources_dedup_witness :
    (((queue_sources (fun _ => []) [] [.plain (pys "a"), .labeled (pys "b") (pys "cse")]
        (pys "discovery")).1.map SRow.url).Nodup)
    ∧ (∀ it ∈ [QItem.plain (pys "a"), QItem.labeled (pys "b") (pys "cse")],
        itemUrl it ∈ (queue_sources (fun _ => []) []
          [.plain (pys "a"), .labeled (pys "b") (pys "cse")]
          (pys "discovery")).1.map SRow.url)
    ∧ queue_sources (fun _ => [])
        (queue_sources (fun _ => []) [] [.plain (pys "a"), .labeled (pys "b") (pys "cse")]
          (pys "discovery")).1
        [.plain (pys "a"), .labeled (pys "b") (pys "cse")] (pys "discovery")
      = ((queue_sources (fun _ => []) [] [.plain (pys "a"), .labeled (pys "b") (pys "cse")]
          (pys "discovery")).1, 0) :=
  queue_sources_dedup (fun _ => []) [] [.plain (pys "a"), .labeled (pys "b") (pys "cse")]
    (pys "discovery") (by decide) (by decide) (by decide)

/-! ### Claim C8 — classification parses the first 0–10 token -/

/-- The scanner flag at position `i` of `l`, starting from flag `prev`:
whether the character just before position `i` is a word character. -/
def prevWAux (prev : Bool) (l : PyStr) (i : Nat) : Bool :=
  match (l.take i).getLast? with
  | none => prev
  | some c => wordChar c

/-- The match of the regex `\b(10|[0-9])\b` at position `i` of `l`. -/
def tokAtPos (l : PyStr) (i : Nat) : Option Nat :=
  tokAt (prevWAux false l i) (l.drop i)

theorem prevWAux_succ (prev : Bool) (c : Char) (rest : PyStr) (i : Nat) :
    prevWAux prev (c :: rest) (i + 1) = prevWAux (wordChar c) rest i := by
  unfold prevWAux
  rw [List.take_succ_cons]
  cases htake : rest.take i with
  | nil => simp
  | cons x xs =>
    rw [List.getLast?_cons_cons]
    cases hgl : (x :: xs).getLast? with
    | none => exact absurd hgl (by simp)
    | some y => rfl

theorem tokAt_le (prev : Bool) (l : PyStr) (n : Nat) (h : tokAt prev l = some n) :
    n ≤ 10 := by
  unfold tokAt at h
  split at h
  · split_ifs at h
    injection h with h'
    omega
  · rename_i c rest _
    split_ifs at h with hcond
    injection h with h'
    have hdig : c.isDigit = true := by
      simp only [Bool.and_eq_true] at hcond
      exact hcond.1.1
    have hle : c.toNat ≤ 57 := by
      simp only [Char.isDigit, decide_eq_true_eq, Bool.and_eq_true] at hdig
      exact hdig.2
    omega
  · exact absurd h (by simp)

theorem scanNum_le (prev : Bool) (l : PyStr) (n : Nat)
    (h : scanNum prev l = some n) : n ≤ 10 := by
  induction l generalizing prev with
  | nil => exact absurd h (by simp [scanNum])
  | cons c rest ih =>
    unfold scanNum at h
    cases htok : tokAt prev (c :: rest) with
    | some m =>
      rw [htok] at h
      injection h with h'
      rw [← h']
      exact tokAt_le prev (c :: rest) m htok
    | none =>
      rw [htok] at h
      exact ih (wordChar c) h

theorem scanNum_eq_none (prev : Bool) (l : PyStr)
    (h : ∀ i, tokAt (prevWAux prev l i) (l.drop i) = none) :
    scanNum prev l = none := by
  induction l generalizing prev with
  | nil => rfl
  | cons c rest ih =>
    have h0 : tokAt prev (c :: rest) = none := h 0
    unfold scanNum
    rw [h0]
    apply ih (wordChar c)
    intro i
    have := h (i + 1)
    rwa [prevWAux_succ, List.drop_succ_cons] at this

theorem scanNum_eq_first (prev : Bool) (l : PyStr) (i n : Nat)
    (hi : tokAt (prevWAux prev l i) (l.drop i) = some n)
    (hmin : ∀ j < i, tokAt (prevWAux prev l j) (l.drop j) = none) :
    scanNum prev l = some n := by
  induction l generalizing prev i with
  | nil =>
    rw [List.drop_nil] at hi
    exact absurd hi (by simp [tokAt])
  | cons c rest ih =>
    cases i with
    | zero =>
      unfold scanNum
      rw [show tokAt prev (c :: rest) = some n from hi]
    | succ j =>
      have h0 : tokAt prev (c :: rest) = none := hmin 0 (Nat.succ_pos j)
      unfold scanNum
      rw [h0]
      rw [prevWAux_succ, List.drop_succ_cons] at hi
      apply ih (wordChar c) j hi
      intro k hk
      have := hmin (k + 1) (Nat.succ_lt_succ hk)
      rwa [prevWAux_succ, List.drop_succ_cons] at this

/-- Claim C8: for every model response text, `classify_chunk` returns the
value of the first occurring standalone digit token in the range 0–10, it
returns 0 (unclassified) when the response contains no parseable number
(no exception is possible — the parse is a total function), and the
returned silo number is always within 0..10. -/
theorem classify_chunk_first_token (o : ModelOracle) (chunk : PyStr) :
    classify_chunk o chunk ≤ 10
    ∧ ((∀ i, tokAtPos (o.classifyResp chunk) i = none) → classify_chunk o chunk = 0)
    ∧ (∀ i n, tokAtPos (o.classifyResp chunk) i = some n →
        (∀ j < i, tokAtPos (o.classifyResp chunk) j = none) →
        classify_chunk o chunk = n) := by
  refine ⟨?_, ?_, ?_⟩
  · show parseSilo (o.classifyResp chunk) ≤ 10
    unfold parseSilo
    cases hs : scanNum false (o.classifyResp chunk) with
    | none => simp
    | some m => simpa using scanNum_le false _ m hs
  · intro h
    show parseSilo (o.classifyResp chunk) = 0
    unfold parseSilo
    rw [scanNum_eq_none false _ h]
    rfl
  · intro i n hi hmin
    show parseSilo (o.classifyResp chunk) = n
    unfold parseSilo
    rw [scanNum_eq_first false _ i n hi hmin]
    rfl

/-- Claim C8, witness: a response text "Silo: 7." whose first (and only)
standalone 0–10 token sits at position 6 classifies to silo 7. -/
theorem classify_chunk_first_token_witness :
    classify_chunk ⟨fun _ => pys "Silo: 7.", fun _ => []⟩ (pys "c") = 7 :=
  (classify_chunk_first_token ⟨fun _ => pys "Silo: 7.", fun _ => []⟩ (pys "c")).2.2
    6 7 (by decide) (by decide)

/-! ### Claim C1 — draft caps and monotone accumulation -/

theorem countWordsAux_cons (flag : Bool) (c : Char) (l : PyStr) :
    countWordsAux flag (c :: l)
      = if pySpace c then countWordsAux false l
        else (if flag then 0 else 1) + countWordsAux true l := rfl

theorem countWordsAux_append_sp (ws : Char) (hws : pySpace ws = true) :
    ∀ (a b : PyStr) (flag : Bool),
      countWordsAux flag (a ++ ws :: b) = countWordsAux flag a + countWordsAux false b := by
  intro a
  induction a with
  | nil =>
    intro b flag
    simp [countWordsAux_cons, countWordsAux, hws]
  | cons c rest ih =>
    intro b flag
    rw [List.cons_append, countWordsAux_cons, countWordsAux_cons]
    by_cases hc : pySpace c = true
    · rw [if_pos hc, if_pos hc, ih]
    · rw [if_neg hc, if_neg hc, ih, Nat.add_assoc]

theorem countWords_le_append_nn (a b : PyStr) :
    countWords a ≤ countWords (a ++ '\n' :: '\n' :: b) := by
  unfold countWords
  rw [countWordsAux_append_sp '\n' (by rfl) a ('\n' :: b) false]
  exact Nat.le_add_right _ _

theorem append_to_silo_mono (st : DraftState) (s : Nat) (content : PyStr) (i : Nat) :
    countWords (st i) ≤ countWords (append_to_silo st s content i) := by
  unfold append_to_silo
  by_cases h : i = s
  · rw [if_pos h]
    exact countWords_le_append_nn _ _
  · rw [if_neg h]

theorem processChunks_mono (cfg : IngestCfg) (o : ModelOracle) (forced : Option Nat) :
    ∀ (chunks : List PyStr) (st : DraftState) (i : Nat),
      countWords (st i) ≤ countWords ((processChunks cfg o forced chunks st).1 i) := by
  intro chunks
  induction chunks with
  | nil => intro st i; exact Nat.le_refl _
  | cons c rest ih =>
    intro st i
    unfold processChunks
    by_cases h1 : cfg.maxTotal ≤ totalDraftWords st
    · rw [if_pos h1]
    · rw [if_neg h1]
      by_cases h2 : cfg.maxPerSilo ≤ countWords (st (resolveSilo o forced c))
      · rw [if_pos h2]
      · rw [if_neg h2]
        exact Nat.le_trans (append_to_silo_mono st _ (o.extractResp c) i) (ih _ i)

/-- Claim C1, counterexample: with a per-silo cap of 2 and a silo-0 draft
currently holding 1 word, extracting a 5-word nugget proceeds without any
`draft_silo_cap` error — although adding would push the count to 6, far
past the cap. The caps are checked as "count has already reached the cap"
before appending, not "adding would exceed the cap". -/
theorem ingest_silo_cap_overshoot_counterexample :
    (processChunks ⟨300, 2, 1000, 50, []⟩ ⟨fun _ => pys "0", fun _ => pys "a b c d e"⟩
        (some 0) [pys "c"] (fun _ => pys "one")).2 = none
    ∧ countWords ((processChunks ⟨300, 2, 1000, 50, []⟩
        ⟨fun _ => pys "0", fun _ => pys "a b c d e"⟩
        (some 0) [pys "c"] (fun _ => pys "one")).1 0) = 6
    ∧ countWords (pys "one") = 1 ∧ 1 < 2 ∧ 2 < 6 :=
  ⟨rfl, rfl, rfl, by decide, by decide⟩

/-- Claim C1, amended: for every chunk of every source, the total draft cap
is checked before any classification (the outcome is the same for every
classification oracle and discards the rest of the source — the whole
source fails with `draft_total_cap`); the per-silo cap of the resolved
chapter is checked before extraction and appending, failing with
`draft_silo_cap`; each cap fires once the accumulated word count has
reached or exceeded the configured cap (the check precedes the append, so
a single extraction may push a count past the cap); and the per-chapter
draft word count is non-decreasing across any sequence of extractions. A
raised cap error fails the whole source. -/
theorem ingest_caps_checked (cfg : IngestCfg) (o : ModelOracle) (forced : Option Nat) :
    (∀ (chunk : PyStr) (rest : List PyStr) (st : DraftState),
      cfg.maxTotal ≤ totalDraftWords st →
      processChunks cfg o forced (chunk :: rest) st = (st, some (pys "draft_total_cap")))
    ∧ (∀ (chunk : PyStr) (rest : List PyStr) (st : DraftState),
      totalDraftWords st < cfg.maxTotal →
      cfg.maxPerSilo ≤ countWords (st (resolveSilo o forced chunk)) →
      processChunks cfg o forced (chunk :: rest) st = (st, some (pys "draft_silo_cap")))
    ∧ (∀ (chunks : List PyStr) (st : DraftState) (i : Nat),
      countWords (st i) ≤ countWords ((processChunks cfg o forced chunks st).1 i))
    ∧ (∀ (s : SrcIn) (srcs : List SrcIn) (st st' : DraftState) (acc : IngestStats)
        (exc : IngestExc),
      (s.isX = true → acc.xCalls < cfg.maxXCalls) →
      processSource cfg o s st = (st', some exc) →
      ∃ tail, (runIngestLoop cfg o (s :: srcs) st acc).2.2
        = .failed (excReason exc) :: tail) := by
  refine ⟨?_, ?_, processChunks_mono cfg o forced, ?_⟩
  · intro chunk rest st h
    unfold processChunks
    rw [if_pos h]
  · intro chunk rest st h1 h2
    unfold processChunks
    rw [if_neg (by omega), if_pos h2]
  · intro s srcs st st' acc exc hbudget hps
    have hskip : (s.isX && decide (cfg.maxXCalls ≤ acc.xCalls)) = false := by
      cases hx : s.isX with
      | false => rfl
      | true =>
        have := hbudget hx
        simp [Nat.not_le.mpr this]
    unfold runIngestLoop
    rw [hskip]
    simp only [Bool.false_eq_true, if_false, hps]
    exact ⟨_, rfl⟩

/-- Claim C1, witness: concrete cap hits and a concrete failed source —
the total cap fires on a full book (11 silos × 1 word ≥ cap 5), the silo
cap fires on a 3-word silo draft against cap 2, monotonicity holds on a
concrete extraction, and a fetch-failed source is marked failed. -/
theorem ingest_caps_checked_witness :
    processChunks ⟨300, 2, 5, 50, []⟩ ⟨fun _ => pys "0", fun _ => pys "a b c d e"⟩
        (some 0) [pys "c"] (fun _ => pys "one")
      = (fun _ => pys "one", some (pys "draft_total_cap"))
    ∧ processChunks ⟨300, 2, 1000, 50, []⟩ ⟨fun _ => pys "0", fun _ => pys "a b c d e"⟩
        (some 0) [pys "c"] (fun _ => pys "w1 w2 w3")
      = (fun _ => pys "w1 w2 w3", some (pys "draft_silo_cap"))
    ∧ countWords ((fun _ => pys "one") 0)
      ≤ countWords ((processChunks ⟨300, 2, 1000, 50, []⟩
          ⟨fun _ => pys "0", fun _ => pys "a b c d e"⟩
          (some 0) [pys "c"] (fun _ => pys "one")).1 0)
    ∧ ∃ tail, (runIngestLoop ⟨300, 2, 1000, 50, []⟩
        ⟨fun _ => pys "0", fun _ => pys "a b c d e"⟩
        [⟨false, none, .error (.valueError (pys "boom"))⟩] (fun _ => pys "one")
        ⟨0, 0, 0, 0⟩).2.2 = .failed (excReason (.valueError (pys "boom"))) :: tail := by
  refine ⟨?_, ?_, ?_, ?_⟩
  · exact (ingest_caps_checked ⟨300, 2, 5, 50, []⟩
      ⟨fun _ => pys "0", fun _ => pys "a b c d e"⟩ (some 0)).1 (pys "c") []
      (fun _ => pys "one") (by decide)
  · exact (ingest_caps_checked ⟨300, 2, 1000, 50, []⟩
      ⟨fun _ => pys "0", fun _ => pys "a b c d e"⟩ (some 0)).2.1 (pys "c") []
      (fun _ => pys "w1 w2 w3") (by decide) (by decide)
  · exact (ingest_caps_checked ⟨300, 2, 1000, 50, []⟩
      ⟨fun _ => pys "0", fun _ => pys "a b c d e"⟩ (some 0)).2.2.1 [pys "c"]
      (fun _ => pys "one") 0
  · exact (ingest_caps_checked ⟨300, 2, 1000, 50, []⟩
      ⟨fun _ => pys "0", fun _ => pys "a b c d e"⟩ (some 0)).2.2.2
      ⟨false, none, .error (.valueError (pys "boom"))⟩ [] (fun _ => pys "one")
      (fun _ => pys "one") ⟨0, 0, 0, 0⟩ (.valueError (pys "boom"))
      (by decide) rfl

/-! ### Claim C5 — too-short sources fail fast -/

/-- Claim C5: a pending source whose fetched text falls below the minimum
word threshold (and which is not skipped by the social budget, i.e. its
text is actually fetched) ends the run with status `failed` and reason
`too_short`, every chapter draft accumulator unchanged, and run stats
`processed=1, extracted=0, failed=1` (and no social call). The conclusion
holds for every model oracle `o` and is independent of it: the source is
rejected before any model call. -/
theorem run_ingest_too_short (cfg : IngestCfg) (o : ModelOracle) (s : SrcIn)
    (st : DraftState) (text : PyStr)
    (hfetch : s.fetched = .ok text)
    (hshort : countWords text < cfg.minWords)
    (hbudget : s.isX = true → 0 < cfg.maxXCalls) :
    (run_ingest cfg o [s] st).1 = ⟨1, 0, 1, 0⟩
    ∧ (run_ingest cfg o [s] st).2.1 = st
    ∧ (run_ingest cfg o [s] st).2.2 = [.failed (pys "too_short")] := by
  have hps : processSource cfg o s st = (st, some (.valueError (pys "too_short"))) := by
    unfold processSource
    simp only [hfetch]
    rw [if_pos hshort]
  have hskip : (s.isX && decide (cfg.maxXCalls ≤ (0 : Nat))) = false := by
    cases hx : s.isX with
    | false => rfl
    | true =>
      have := hbudget hx
      simp [Nat.not_le.mpr this]
  have hloop : run_ingest cfg o [s] st
      = (⟨1, 0, 1, 0⟩, st, [.failed (pys "too_short")]) := by
    unfold run_ingest runIngestLoop
    rw [show ((⟨0, 0, 0, 0⟩ : IngestStats).xCalls) = (0 : Nat) from rfl] at *
    rw [hskip]
    simp only [Bool.false_eq_true, if_false, hps]
    rfl
  rw [hloop]
  exact ⟨rfl, rfl, rfl⟩

/-- Claim C5, witness: a 2-word page against a 300-word minimum fails with
`too_short`, leaving the drafts untouched and stats `1/0/1`. -/
theorem run_ingest_too_short_witness :
    (run_ingest ⟨300, 5000, 30000, 50, []⟩ ⟨fun _ => pys "0", fun _ => pys "n"⟩
        [⟨false, none, .ok (pys "tiny page")⟩] (fun _ => pys "one")).1 = ⟨1, 0, 1, 0⟩
    ∧ (run_ingest ⟨300, 5000, 30000, 50, []⟩ ⟨fun _ => pys "0", fun _ => pys "n"⟩
        [⟨false, none, .ok (pys "tiny page")⟩] (fun _ => pys "one")).2.1
      = (fun _ => pys "one")
    ∧ (run_ingest ⟨300, 5000, 30000, 50, []⟩ ⟨fun _ => pys "0", fun _ => pys "n"⟩
        [⟨false, none, .ok (pys "tiny page")⟩] (fun _ => pys "one")).2.2
      = [.failed (pys "too_short")] :=
  run_ingest_too_short ⟨300, 5000, 30000, 50, []⟩ ⟨fun _ => pys "0", fun _ => pys "n"⟩
    ⟨false, none, .ok (pys "tiny page")⟩ (fun _ => pys "one") (pys "tiny page")
    rfl (by decide) (by decide)

/-! ### Claim C9 — run statistics partition the sources -/

/-- Is a final source status `extracted`? -/
def isExtractedStatus : SrcStatus → Bool
  | .extracted => true
  | _ => false

/-- Is a final source status `failed`? -/
def isFailedStatus : SrcStatus → Bool
  | .failed _ => true
  | _ => false

/-- Is a final source status still `pending`? -/
def isPendingStatus : SrcStatus → Bool
  | .pending => true
  | _ => false

theorem countP_not_pending (outs : List SrcStatus) :
    outs.countP (fun x => !isPendingStatus x)
      = outs.countP isExtractedStatus + outs.countP isFailedStatus := by
  induction outs with
  | nil => rfl
  | cons x rest ih =>
    rw [List.countP_cons, List.countP_cons, List.countP_cons, ih]
    cases x with
    | pending => simp [isPendingStatus, isExtractedStatus, isFailedStatus]
    | extracted =>
      simp only [isPendingStatus, isExtractedStatus, isFailedStatus]
      simp
      omega
    | failed r =>
      simp only [isPendingStatus, isExtractedStatus, isFailedStatus]
      simp
      omega

theorem runIngestLoop_stats (cfg : IngestCfg) (o : ModelOracle) :
    ∀ (srcs : List SrcIn) (st : DraftState) (acc : IngestStats),
      (runIngestLoop cfg o srcs st acc).2.2.length = srcs.length
      ∧ (runIngestLoop cfg o srcs st acc).1.processed
        = acc.processed + (runIngestLoop cfg o srcs st acc).2.2.countP
            (fun x => !isPendingStatus x)
      ∧ (runIngestLoop cfg o srcs st acc).1.extracted
        = acc.extracted + (runIngestLoop cfg o srcs st acc).2.2.countP isExtractedStatus
      ∧ (runIngestLoop cfg o srcs st acc).1.failed
        = acc.failed + (runIngestLoop cfg o srcs st acc).2.2.countP isFailedStatus
      ∧ (runIngestLoop cfg o srcs st acc).1.xCalls
        = acc.xCalls + (srcs.zip (runIngestLoop cfg o srcs st acc).2.2).countP
            (fun p => p.1.isX && isExtractedStatus p.2)
      ∧ (∀ p ∈ srcs.zip (runIngestLoop cfg o srcs st acc).2.2,
          isPendingStatus p.2 = true → p.1.isX = true) := by
  intro srcs
  induction srcs with
  | nil =>
    intro st acc
    refine ⟨rfl, by simp [runIngestLoop], by simp [runIngestLoop],
      by simp [runIngestLoop], by simp [runIngestLoop], ?_⟩
    intro p hp
    simp [runIngestLoop] at hp
  | cons s rest ih =>
    intro st acc
    unfold runIngestLoop
    by_cases hsk : (s.isX && decide (cfg.maxXCalls ≤ acc.xCalls)) = true
    · rw [if_pos hsk]
      obtain ⟨ihl, ihp, ihe, ihf, ihx, ihpend⟩ := ih st acc
      refine ⟨by simp [ihl], ?_, ?_, ?_, ?_, ?_⟩
      · simpa [List.countP_cons, isPendingStatus] using ihp
      · simpa [List.countP_cons, isExtractedStatus] using ihe
      · simpa [List.countP_cons, isFailedStatus] using ihf
      · simpa [List.zip_cons_cons, List.countP_cons, isExtractedStatus] using ihx
      · intro p hp
        rw [List.zip_cons_cons, List.mem_cons] at hp
        rcases hp with hp | hp
        · intro _
          subst hp
          simp only [Bool.and_eq_true] at hsk
          exact hsk.1
        · exact ihpend p hp
    · rw [if_neg hsk]
      cases hres : processSource cfg o s st with
      | mk st' oexc =>
        cases oexc with
        | none =>
          obtain ⟨ihl, ihp, ihe, ihf, ihx, ihpend⟩ := ih st'
            { processed := acc.processed + 1, extracted := acc.extracted + 1,
              failed := acc.failed, xCalls := acc.xCalls + (if s.isX then 1 else 0) }
          refine ⟨by simp [ihl], ?_, ?_, ?_, ?_, ?_⟩
          · simp only [List.countP_cons]
            simp [isPendingStatus, ihp]
            omega
          · simp only [List.countP_cons]
            simp [isExtractedStatus, ihe]
            omega
          · simp only [List.countP_cons]
            simp [isFailedStatus, ihf]
          · simp only [List.zip_cons_cons, List.countP_cons]
            simp [isExtractedStatus, ihx]
            cases s.isX
            all_goals simp
            all_goals try omega
          · intro p hp
            rw [List.zip_cons_cons, List.mem_cons] at hp
            rcases hp with hp | hp
            · intro hpend
              subst hp
              simp [isPendingStatus] at hpend
            · exact ihpend p hp
        | some exc =>
          obtain ⟨ihl, ihp, ihe, ihf, ihx, ihpend⟩ := ih st'
            { processed := acc.processed + 1, extracted := acc.extracted,
              failed := acc.failed + 1, xCalls := acc.xCalls }
          refine ⟨by simp [ihl], ?_, ?_, ?_, ?_, ?_⟩
          · simp only [List.countP_cons]
            simp [isPendingStatus, ihp]
            omega
          · simp only [List.countP_cons]
            simp [isExtractedStatus, ihe]
          · simp only [List.countP_cons]
            simp [isFailedStatus, ihf]
            omega
          · simp only [List.zip_cons_cons, List.countP_cons]
            simp [isExtractedStatus, ihx]
          · intro p hp
            rw [List.zip_cons_cons, List.mem_cons] at hp
            rcases hp with hp | hp
            · intro hpend
              subst hp
              simp [isPendingStatus] at hpend
            · exact ihpend p hp

/-- Claim C9: for every `run_ingest` invocation the stats satisfy
`processed = extracted + failed`; every source counted in `processed` ends
the run `extracted` or `failed` (processed counts exactly the non-pending
statuses); a source left `pending` (skipped for social-budget exhaustion)
is necessarily a social source and is counted in none of the stats; and
the social-call counter counts exactly the social sources that ended
`extracted`, never failed ones. -/
theorem run_ingest_stats_partition (cfg : IngestCfg) (o : ModelOracle)
    (srcs : List SrcIn) (st : DraftState) :
    (run_ingest cfg o srcs st).1.processed
      = (run_ingest cfg o srcs st).1.extracted + (run_ingest cfg o srcs st).1.failed
    ∧ (run_ingest cfg o srcs st).2.2.length = srcs.length
    ∧ (run_ingest cfg o srcs st).1.processed
      = (run_ingest cfg o srcs st).2.2.countP (fun x => !isPendingStatus x)
    ∧ (run_ingest cfg o srcs st).1.extracted
      = (run_ingest cfg o srcs st).2.2.countP isExtractedStatus
    ∧ (run_ingest cfg o srcs st).1.failed
      = (run_ingest cfg o srcs st).2.2.countP isFailedStatus
    ∧ (run_ingest cfg o srcs st).1.xCalls
      = (srcs.zip (run_ingest cfg o srcs st).2.2).countP
          (fun p => p.1.isX && isExtractedStatus p.2)
    ∧ (∀ p ∈ srcs.zip (run_ingest cfg o srcs st).2.2,
        isPendingStatus p.2 = true → p.1.isX = true) := by
  unfold run_ingest
  obtain ⟨hl, hp, he, hf, hx, hpend⟩ := runIngestLoop_stats cfg o srcs st ⟨0, 0, 0, 0⟩
  refine ⟨?_, hl, ?_, ?_, ?_, ?_, hpend⟩
  · rw [hp, he, hf, countP_not_pending]
    simp
  · simpa using hp
  · simpa using he
  · simpa using hf
  · simpa using hx

/-- Claim C9, witness: one social source against an exhausted (zero)
social budget is skipped: stats are all zero, the source stays `pending`,
and the theorem's pending-implies-social implication holds at it. -/
theorem run_ingest_stats_partition_witness :
    (run_ingest ⟨300, 5000, 30000, 0, []⟩ ⟨fun _ => pys "0", fun _ => pys "n"⟩
        [⟨true, none, .ok (pys "text")⟩] (fun _ => [])).1.processed
      = (run_ingest ⟨300, 5000, 30000, 0, []⟩ ⟨fun _ => pys "0", fun _ => pys "n"⟩
          [⟨true, none, .ok (pys "text")⟩] (fun _ => [])).1.extracted
        + (run_ingest ⟨300, 5000, 30000, 0, []⟩ ⟨fun _ => pys "0", fun _ => pys "n"⟩
            [⟨true, none, .ok (pys "text")⟩] (fun _ => [])).1.failed
    ∧ (run_ingest ⟨300, 5000, 30000, 0, []⟩ ⟨fun _ => pys "0", fun _ => pys "n"⟩
        [⟨true, none, .ok (pys "text")⟩] (fun _ => [])).2.2 = [.pending]
    ∧ (⟨true, none, .ok (pys "text")⟩ : SrcIn).isX = true := by
  obtain ⟨hpe, _, _, _, _, _, hpend⟩ :=
    run_ingest_stats_partition ⟨300, 5000, 30000, 0, []⟩ ⟨fun _ => pys "0", fun _ => pys "n"⟩
      [⟨true, none, .ok (pys "text")⟩] (fun _ => [])
  refine ⟨hpe, rfl, ?_⟩
  exact hpend (⟨true, none, .ok (pys "text")⟩, .pending)
    (List.mem_singleton.mpr rfl) rfl

/-! ### Claim C6 — swarm failure isolation -/

theorem runSilo_error (env : SwarmEnv) (fs : SwarmFiles) (f : Nat) (e : PyStr)
    (hf : env.chapterText f = .error e) :
    runSilo env fs f = (fs, .error e) := by
  unfold runSilo
  rw [hf]

theorem runSilo_other_files (env : SwarmEnv) (fs : SwarmFiles) (s f : Nat)
    (hne : f ≠ s) :
    (runSilo env fs s).1.draft f = fs.draft f
    ∧ (runSilo env fs s).1.prevDraft f = fs.prevDraft f := by
  unfold runSilo
  cases henv : env.chapterText s with
  | error e => exact ⟨rfl, rfl⟩
  | ok text =>
    cases hd : fs.draft s with
    | none =>
      refine ⟨?_, ?_⟩ <;> simp [updateAt, hne]
    | some old =>
      refine ⟨?_, ?_⟩ <;> simp [updateAt, hne]

theorem runSwarmLoop_isolation (env : SwarmEnv) (f : Nat) (e : PyStr)
    (hf : env.chapterText f = .error e) :
    ∀ (sel : List Nat) (fs : SwarmFiles),
      (∀ s ∈ sel, s ≠ f → (env.chapterText s).isOk = true) →
      ((runSwarmLoop env sel fs).2.filterMap swarmErr).length = sel.count f
      ∧ ((runSwarmLoop env sel fs).2.filterMap swarmOk).length = sel.length - sel.count f
      ∧ (runSwarmLoop env sel fs).1.draft f = fs.draft f
      ∧ (runSwarmLoop env sel fs).1.prevDraft f = fs.prevDraft f := by
  intro sel
  induction sel with
  | nil =>
    intro fs _
    exact ⟨by simp [runSwarmLoop], by simp [runSwarmLoop], rfl, rfl⟩
  | cons s rest ih =>
    intro fs hok
    by_cases hs : s = f
    · subst hs
      have hrs : runSilo env fs s = (fs, .error e) := runSilo_error env fs s e hf
      have hrest := ih fs fun s' hm hne => hok s' (List.mem_cons_of_mem _ hm) hne
      obtain ⟨ihe, ihk, ihd, ihp⟩ := hrest
      unfold runSwarmLoop
      rw [hrs]
      refine ⟨?_, ?_, ihd, ihp⟩
      · simp only [List.filterMap_cons, swarmErr, List.length_cons, ihe,
          List.count_cons_self]
      · simp only [List.filterMap_cons, swarmOk, ihk, List.count_cons_self,
          List.length_cons]
        have : rest.count s ≤ rest.length := List.count_le_length _ _
        omega
    · have hok0 : (env.chapterText s).isOk = true :=
        hok s (List.mem_cons_self _ _) hs
      have hcnt : (s :: rest).count f = rest.count f := by
        rw [List.count_cons]
        simp [hs, Ne.symm hs]
      cases henv : env.chapterText s with
      | error e' =>
        rw [henv] at hok0
        exact absurd hok0 (by simp [Except.isOk, Except.toBool])
      | ok text =>
        have hne : f ≠ s := Ne.symm hs
        obtain ⟨hdother, hpother⟩ := runSilo_other_files env fs s f hne
        have hrec := ih (runSilo env fs s).1
          fun s' hm hne' => hok s' (List.mem_cons_of_mem _ hm) hne'
        obtain ⟨ihe, ihk, ihd, ihp⟩ := hrec
        have hres : (runSilo env fs s).2 = .ok ⟨s, countWords text⟩ := by
          unfold runSilo
          rw [henv]
        unfold runSwarmLoop
        refine ⟨?_, ?_, ?_, ?_⟩
        · rw [hcnt]
          simp only [List.filterMap_cons, hres, swarmErr, ihe]
        · rw [hcnt]
          simp only [List.filterMap_cons, hres, swarmOk, List.length_cons, ihk]
          have : rest.count f ≤ rest.length := List.count_le_length _ _
          omega
        · rw [ihd, hdother]
        · rw [ihp, hpother]

/-- Claim C6: when exactly one selected chapter's generation call raises,
`run_swarm` returns exactly N−1 completed records and exactly 1 error —
the batch is never aborted by a single chapter's failure — and the failing
chapter's pre-existing draft artifact (and its backup) is left untouched. -/
theorem run_swarm_single_failure_isolated (env : SwarmEnv) (fs : SwarmFiles)
    (silos : Option (List Nat)) (f : Nat) (e : PyStr)
    (hf : env.chapterText f = .error e)
    (hok : ∀ s ∈ selectSilos silos, s ≠ f → (env.chapterText s).isOk = true)
    (hcount : (selectSilos silos).count f = 1) :
    (run_swarm env fs silos).errors.length = 1
    ∧ (run_swarm env fs silos).completed.length = (selectSilos silos).length - 1
    ∧ (run_swarm env fs silos).files.draft f = fs.draft f
    ∧ (run_swarm env fs silos).files.prevDraft f = fs.prevDraft f := by
  obtain ⟨he, hk, hd, hp⟩ := runSwarmLoop_isolation env f e hf (selectSilos silos) fs hok
  rw [hcount] at he hk
  exact ⟨he, hk, hd, hp⟩

/-- Claim C6, witness: three chapters where chapter 2's generation raises:
2 completed, 1 error, and chapter 2's pre-existing draft survives. -/
theorem run_swarm_single_failure_isolated_witness :
    (run_swarm ⟨fun s => if s = 2 then .error (pys "boom") else .ok (pys "prose text"),
        fun _ => pys "rev", fun _ => pys "src"⟩
      ⟨fun _ => some (pys "old draft"), fun _ => none, fun _ => none, fun _ => none⟩
      (some [1, 2, 3])).errors.length = 1
    ∧ (run_swarm ⟨fun s => if s = 2 then .error (pys "boom") else .ok (pys "prose text"),
        fun _ => pys "rev", fun _ => pys "src"⟩
      ⟨fun _ => some (pys "old draft"), fun _ => none, fun _ => none, fun _ => none⟩
      (some [1, 2, 3])).completed.length = (selectSilos (some [1, 2, 3])).length - 1
    ∧ (run_swarm ⟨fun s => if s = 2 then .error (pys "boom") else .ok (pys "prose text"),
        fun _ => pys "rev", fun _ => pys "src"⟩
      ⟨fun _ => some (pys "old draft"), fun _ => none, fun _ => none, fun _ => none⟩
      (some [1, 2, 3])).files.draft 2 = some (pys "old draft")
    ∧ (run_swarm ⟨fun s => if s = 2 then .error (pys "boom") else .ok (pys "prose text"),
        fun _ => pys "rev", fun _ => pys "src"⟩
      ⟨fun _ => some (pys "old draft"), fun _ => none, fun _ => none, fun _ => none⟩
      (some [1, 2, 3])).files.prevDraft 2 = none :=
  run_swarm_single_failure_isolated
    ⟨fun s => if s = 2 then .error (pys "boom") else .ok (pys "prose text"),
      fun _ => pys "rev", fun _ => pys "src"⟩
    ⟨fun _ => some (pys "old draft"), fun _ => none, fun _ => none, fun _ => none⟩
    (some [1, 2, 3]) 2 (pys "boom") rfl (by decide) (by decide)

/-! ### Claim C7 — autopilot stop conditions -/

theorem apLoop_char (env : Nat → CycleEnv) (sw : Option Nat) (son : Bool) :
    ∀ (k start : Nat),
      (apLoop env sw son (List.range' start k)).1.length ≤ k
      ∧ (apLoop env sw son (List.range' start k)).1
        = (List.range' start (apLoop env sw son (List.range' start k)).1.length).map
            (fun c => mkRec c (env c))
      ∧ (∀ c, start ≤ c → c < start + (apLoop env sw son (List.range' start k)).1.length →
          (env c).stopAtStart = false)
      ∧ ((apLoop env sw son (List.range' start k)).2 = .sentinel →
          (apLoop env sw son (List.range' start k)).1.length < k
          ∧ (env (start + (apLoop env sw son (List.range' start k)).1.length)).stopAtStart = true
          ∧ (∀ c, start ≤ c → c < start + (apLoop env sw son (List.range' start k)).1.length →
              midStop sw son (env c) = false))
      ∧ ((apLoop env sw son (List.range' start k)).2 = .wordTarget →
          0 < (apLoop env sw son (List.range' start k)).1.length
          ∧ wordHit sw (env (start + (apLoop env sw son (List.range' start k)).1.length - 1)) = true
          ∧ (∀ c, start ≤ c →
              c < start + (apLoop env sw son (List.range' start k)).1.length - 1 →
              midStop sw son (env c) = false))
      ∧ ((apLoop env sw son (List.range' start k)).2 = .converged →
          0 < (apLoop env sw son (List.range' start k)).1.length
          ∧ wordHit sw (env (start + (apLoop env sw son (List.range' start k)).1.length - 1)) = false
          ∧ noNewHit son (env (start + (apLoop env sw son (List.range' start k)).1.length - 1)) = true
          ∧ (∀ c, start ≤ c →
              c < start + (apLoop env sw son (List.range' start k)).1.length - 1 →
              midStop sw son (env c) = false))
      ∧ ((apLoop env sw son (List.range' start k)).2 = .exhausted →
          (apLoop env sw son (List.range' start k)).1.length = k
          ∧ (∀ c, start ≤ c → c < start + (apLoop env sw son (List.range' start k)).1.length →
              midStop sw son (env c) = false)) := by
  intro k
  induction k with
  | zero =>
    intro start
    have h0 : apLoop env sw son (List.range' start 0) = ([], .exhausted) := rfl
    rw [h0]
    refine ⟨Nat.le_refl 0, rfl, ?_, ?_, ?_, ?_, ?_⟩
    · intro c hc1 hc2
      simp at hc2
      omega
    · intro h
      exact StopReason.noConfusion h
    · intro h
      exact StopReason.noConfusion h
    · intro h
      exact StopReason.noConfusion h
    · intro _
      refine ⟨rfl, ?_⟩
      intro c hc1 hc2
      simp at hc2
      omega
  | succ n ih =>
    intro start
    have hr : List.range' start (n + 1) = start :: List.range' (start + 1) n := rfl
    rw [hr]
    by_cases h1 : (env start).stopAtStart = true
    · have hres : apLoop env sw son (start :: List.range' (start + 1) n) = ([], .sentinel) := by
        unfold apLoop
        rw [if_pos h1]
      rw [hres]
      refine ⟨Nat.zero_le _, rfl, ?_, ?_, ?_, ?_, ?_⟩
      · intro c hc1 hc2
        simp at hc2
        omega
      · intro _
        refine ⟨Nat.succ_pos n, ?_, ?_⟩
        · exact h1
        · intro c hc1 hc2
          simp at hc2
          omega
      · intro h
        exact StopReason.noConfusion h
      · intro h
        exact StopReason.noConfusion h
      · intro h
        exact StopReason.noConfusion h
    · rw [Bool.not_eq_true] at h1
      by_cases h2 : wordHit sw (env start) = true
      · have hres : apLoop env sw son (start :: List.range' (start + 1) n)
            = ([mkRec start (env start)], .wordTarget) := by
          unfold apLoop
          rw [h1, if_pos h2]
          simp
        rw [hres]
        refine ⟨Nat.succ_le_succ (Nat.zero_le n), rfl, ?_, ?_, ?_, ?_, ?_⟩
        · intro c hc1 hc2
          simp at hc2
          have hceq : c = start := by omega
          rw [hceq]
          exact h1
        · intro h
          exact StopReason.noConfusion h
        · intro _
          refine ⟨Nat.one_pos, ?_, ?_⟩
          · exact h2
          · intro c hc1 hc2
            simp at hc2
            omega
        · intro h
          exact StopReason.noConfusion h
        · intro h
          exact StopReason.noConfusion h
      · rw [Bool.not_eq_true] at h2
        by_cases h3 : noNewHit son (env start) = true
        · have hres : apLoop env sw son (start :: List.range' (start + 1) n)
              = ([mkRec start (env start)], .converged) := by
            unfold apLoop
            rw [h1, h2, if_pos h3]
            simp
          rw [hres]
          refine ⟨Nat.succ_le_succ (Nat.zero_le n), rfl, ?_, ?_, ?_, ?_, ?_⟩
          · intro c hc1 hc2
            simp at hc2
            have hceq : c = start := by omega
            rw [hceq]
            exact h1
          · intro h
            exact StopReason.noConfusion h
          · intro h
            exact StopReason.noConfusion h
          · intro _
            refine ⟨Nat.one_pos, ?_, ?_, ?_⟩
            · exact h2
            · exact h3
            · intro c hc1 hc2
              simp at hc2
              omega
          · intro h
            exact StopReason.noConfusion h
        · rw [Bool.not_eq_true] at h3
          have hmid0 : midStop sw son (env start) = false := by
            unfold midStop
            rw [h2, h3]
            rfl
          have hres : apLoop env sw son (start :: List.range' (start + 1) n)
              = (mkRec start (env start) :: (apLoop env sw son (List.range' (start + 1) n)).1,
                 (apLoop env sw son (List.range' (start + 1) n)).2) := by
            conv_lhs => rw [apLoop]
            rw [h1, h2, h3]
            simp
          have hres1 : (apLoop env sw son (start :: List.range' (start + 1) n)).1
              = mkRec start (env start) :: (apLoop env sw son (List.range' (start + 1) n)).1 := by
            rw [hres]
          have hres2 : (apLoop env sw son (start :: List.range' (start + 1) n)).2
              = (apLoop env sw son (List.range' (start + 1) n)).2 := by
            rw [hres]
          obtain ⟨ihlen, ihrec, ihstop, ihsent, ihword, ihconv, ihexh⟩ := ih (start + 1)
          rw [hres1, hres2, List.length_cons]
          refine ⟨Nat.succ_le_succ ihlen, ?_, ?_, ?_, ?_, ?_, ?_⟩
          · rw [List.range'_succ, List.map_cons]
            exact congrArg (List.cons _) ihrec
          · intro c hc1 hc2
            by_cases hc : c = start
            · rw [hc]
              exact h1
            · exact ihstop c (by omega) (by omega)
          · intro h
            obtain ⟨hl, hs, hm⟩ := ihsent h
            refine ⟨by omega, ?_, ?_⟩
            · rw [show start + ((apLoop env sw son (List.range' (start + 1) n)).1.length + 1)
                  = (start + 1) + (apLoop env sw son (List.range' (start + 1) n)).1.length
                  from by omega]
              exact hs
            · intro c hc1 hc2
              by_cases hc : c = start
              · rw [hc]
                exact hmid0
              · exact hm c (by omega) (by omega)
          · intro h
            obtain ⟨hpos, hw, hm⟩ := ihword h
            refine ⟨Nat.succ_pos _, ?_, ?_⟩
            · rw [show start + ((apLoop env sw son (List.range' (start + 1) n)).1.length + 1) - 1
                  = (start + 1) + (apLoop env sw son (List.range' (start + 1) n)).1.length - 1
                  from by omega]
              exact hw
            · intro c hc1 hc2
              by_cases hc : c = start
              · rw [hc]
                exact hmid0
              · exact hm c (by omega) (by omega)
          · intro h
            obtain ⟨hpos, hw, hn, hm⟩ := ihconv h
            refine ⟨Nat.succ_pos _, ?_, ?_, ?_⟩
            · rw [show start + ((apLoop env sw son (List.range' (start + 1) n)).1.length + 1) - 1
                  = (start + 1) + (apLoop env sw son (List.range' (start + 1) n)).1.length - 1
                  from by omega]
              exact hw
            · rw [show start + ((apLoop env sw son (List.range' (start + 1) n)).1.length + 1) - 1
                  = (start + 1) + (apLoop env sw son (List.range' (start + 1) n)).1.length - 1
                  from by omega]
              exact hn
            · intro c hc1 hc2
              by_cases hc : c = start
              · rw [hc]
                exact hmid0
              · exact hm c (by omega) (by omega)
          · intro h
            obtain ⟨hl, hm⟩ := ihexh h
            refine ⟨by omega, ?_⟩
            intro c hc1 hc2
            by_cases hc : c = start
            · rw [hc]
              exact hmid0
            · exact hm c (by omega) (by omega)


/-- Claim C7: `run_autopilot` stops iterating exactly when one of these
holds — the stop sentinel exists at the start of a cycle, the total draft
word count has reached a configured (positive; Python truthiness treats
`None` and `0` as "no target") `stop_wordcount`, a cycle both queued
nothing and ingested nothing while `stop_on_no_new` is set, or
`max_cycles` is exhausted. The stop reason is sound (the named condition
held where indicated) and minimal (no stop condition held earlier: no
executed cycle saw the sentinel at its start, and no cycle before the last
executed one satisfied a post-cycle stop test), and on every exit the loop
writes a final not-running status snapshot and removes the stop sentinel
if present. -/
theorem run_autopilot_stop_conditions (env : Nat → CycleEnv) (maxCycles : Nat)
    (sw : Option Nat) (son : Bool) :
    (run_autopilot env maxCycles sw son).finalRunning = false
    ∧ (run_autopilot env maxCycles sw son).sentinelAfter = false
    ∧ (run_autopilot env maxCycles sw son).records.length ≤ maxCycles
    ∧ (run_autopilot env maxCycles sw son).records
      = (List.range' 1 (run_autopilot env maxCycles sw son).records.length).map
          (fun c => mkRec c (env c))
    ∧ (∀ c, 1 ≤ c → c < 1 + (run_autopilot env maxCycles sw son).records.length →
        (env c).stopAtStart = false)
    ∧ ((run_autopilot env maxCycles sw son).reason = .sentinel →
        (run_autopilot env maxCycles sw son).records.length < maxCycles
        ∧ (env (1 + (run_autopilot env maxCycles sw son).records.length)).stopAtStart = true
        ∧ (∀ c, 1 ≤ c → c < 1 + (run_autopilot env maxCycles sw son).records.length →
            midStop sw son (env c) = false))
    ∧ ((run_autopilot env maxCycles sw son).reason = .wordTarget →
        0 < (run_autopilot env maxCycles sw son).records.length
        ∧ wordHit sw (env (1 + (run_autopilot env maxCycles sw son).records.length - 1)) = true
        ∧ (∀ c, 1 ≤ c → c < 1 + (run_autopilot env maxCycles sw son).records.length - 1 →
            midStop sw son (env c) = false))
    ∧ ((run_autopilot env maxCycles sw son).reason = .converged →
        0 < (run_autopilot env maxCycles sw son).records.length
        ∧ wordHit sw (env (1 + (run_autopilot env maxCycles sw son).records.length - 1)) = false
        ∧ noNewHit son (env (1 + (run_autopilot env maxCycles sw son).records.length - 1)) = true
        ∧ (∀ c, 1 ≤ c → c < 1 + (run_autopilot env maxCycles sw son).records.length - 1 →
            midStop sw son (env c) = false))
    ∧ ((run_autopilot env maxCycles sw son).reason = .exhausted →
        (run_autopilot env maxCycles sw son).records.length = maxCycles) := by
  have hrec : (run_autopilot env maxCycles sw son).records
      = (apLoop env sw son (List.range' 1 maxCycles)).1 := rfl
  have hreason : (run_autopilot env maxCycles sw son).reason
      = (apLoop env sw son (List.range' 1 maxCycles)).2 := rfl
  obtain ⟨hlen, hrecs, hstop, hsent, hword, hconv, hexh⟩ := apLoop_char env sw son maxCycles 1
  rw [hrec, hreason]
  exact ⟨rfl, rfl, hlen, hrecs, hstop, hsent, hword, hconv, fun h => (hexh h).1⟩

/-- Claim C7, witness: an environment that queues and ingests nothing with
`stop_on_no_new` set converges after one cycle; the exit is a not-running
status with the sentinel cleared, and the convergence condition held on
that cycle. -/
theorem run_autopilot_stop_conditions_witness :
    (run_autopilot (fun _ => ⟨false, 0, 0, 0, 100⟩) 5 none true).finalRunning = false
    ∧ (run_autopilot (fun _ => ⟨false, 0, 0, 0, 100⟩) 5 none true).sentinelAfter = false
    ∧ (run_autopilot (fun _ => ⟨false, 0, 0, 0, 100⟩) 5 none true).records.length = 1
    ∧ noNewHit true ((fun _ => (⟨false, 0, 0, 0, 100⟩ : CycleEnv))
        (1 + (run_autopilot (fun _ => ⟨false, 0, 0, 0, 100⟩) 5 none true).records.length - 1))
      = true := by
  obtain ⟨h1, h2, _, _, _, _, _, hconv, _⟩ :=
    run_autopilot_stop_conditions (fun _ => ⟨false, 0, 0, 0, 100⟩) 5 none true
  exact ⟨h1, h2, rfl, (hconv (by decide)).2.2.1⟩

/-! ### Claim C3 — chunker correctness -/

/-- No two adjacent newline characters (no `"\n\n"` substring). -/
def noNN : PyStr → Bool
  | [] => true
  | [_] => true
  | a :: b :: rest => !(a = '\n' && b = '\n') && noNN (b :: rest)

/-- The first character, if any, is not whitespace. -/
def headNotSpace (p : PyStr) : Bool :=
  match p.head? with
  | none => true
  | some c => !pySpace c

/-- The last character, if any, is not whitespace. -/
def lastNotSpace (p : PyStr) : Bool :=
  match p.getLast? with
  | none => true
  | some c => !pySpace c

theorem noNN_cons2 (a b : Char) (rest : PyStr) :
    noNN (a :: b :: rest) = (!(a = '\n' && b = '\n') && noNN (b :: rest)) := rfl

theorem splitNN_ne_nil : ∀ l : PyStr, splitNN l ≠ [] := by
  intro l
  induction l using splitNN.induct with
  | case1 => simp [splitNN]
  | case2 c => simp [splitNN]
  | case3 a b rest h ih =>
    simp only [splitNN]
    rw [if_pos h]
    simp
  | case4 a b rest h comp comps hsplit ih =>
    simp only [splitNN, hsplit]
    rw [if_neg h]
    simp
  | case5 a b rest h hsplit ih =>
    exact absurd hsplit ih

theorem splitNN_head : ∀ (l : PyStr) (d : Char) (comp' : PyStr) (comps : List PyStr),
    splitNN l = (d :: comp') :: comps → l.head? = some d := by
  intro l
  induction l using splitNN.induct with
  | case1 =>
    intro d comp' comps h
    simp [splitNN] at h
  | case2 c =>
    intro d comp' comps h
    simp only [splitNN] at h
    rw [List.cons.injEq] at h
    obtain ⟨h1, _⟩ := h
    rw [List.cons.injEq] at h1
    rw [h1.1]
    rfl
  | case3 a b rest h ih =>
    intro d comp' comps hh
    simp only [splitNN] at hh
    rw [if_pos h] at hh
    rw [List.cons.injEq] at hh
    exact absurd hh.1 (by simp)
  | case4 a b rest h comp comps0 hsplit ih =>
    intro d comp' comps hh
    simp only [splitNN, hsplit] at hh
    rw [if_neg h] at hh
    rw [List.cons.injEq] at hh
    obtain ⟨h1, _⟩ := hh
    rw [List.cons.injEq] at h1
    rw [h1.1]
    rfl
  | case5 a b rest h hsplit ih =>
    exact absurd hsplit (splitNN_ne_nil _)

theorem noNN_splitNN : ∀ l : PyStr, ∀ p ∈ splitNN l, noNN p = true := by
  intro l
  induction l using splitNN.induct with
  | case1 =>
    intro p hp
    simp [splitNN] at hp
    rw [hp]
    rfl
  | case2 c =>
    intro p hp
    simp [splitNN] at hp
    rw [hp]
    rfl
  | case3 a b rest h ih =>
    intro p hp
    simp only [splitNN] at hp
    rw [if_pos h] at hp
    rw [List.mem_cons] at hp
    rcases hp with hp | hp
    · rw [hp]
      rfl
    · exact ih p hp
  | case4 a b rest h comp comps hsplit ih =>
    intro p hp
    simp only [splitNN, hsplit] at hp
    rw [if_neg h] at hp
    rw [List.mem_cons] at hp
    rcases hp with hp | hp
    · rw [hp]
      cases hcomp : comp with
      | nil => rfl
      | cons d comp' =>
        have hmem : comp ∈ splitNN (b :: rest) := by
          rw [hsplit]
          exact List.mem_cons_self _ _
        have hnn : noNN comp = true := ih comp hmem
        have hbd : b = d := by
          have := splitNN_head (b :: rest) d comp' comps (by rw [hsplit, hcomp])
          simpa using this
        rw [← hbd]
        rw [noNN_cons2, Bool.and_eq_true]
        refine ⟨?_, ?_⟩
        · simp only [Bool.not_eq_true']
          rw [Bool.eq_false_iff]
          exact h
        · rw [hcomp, ← hbd] at hnn
          exact hnn
    · exact ih p (by rw [hsplit]; exact List.mem_cons_of_mem _ hp)
  | case5 a b rest h hsplit ih =>
    exact absurd hsplit (splitNN_ne_nil _)

theorem splitNN_of_noNN : ∀ p : PyStr, noNN p = true → splitNN p = [p] := by
  intro p
  induction p using splitNN.induct with
  | case1 => intro _; rfl
  | case2 c => intro _; rfl
  | case3 a b rest h ih =>
    intro hnn
    exfalso
    rw [noNN_cons2, Bool.and_eq_true] at hnn
    rw [h] at hnn
    simp at hnn
  | case4 a b rest h comp comps hsplit ih =>
    intro hnn
    have hnn' : noNN (b :: rest) = true := by
      rw [noNN_cons2, Bool.and_eq_true] at hnn
      exact hnn.2
    have heq := ih hnn'
    rw [hsplit] at heq
    rw [List.cons.injEq] at heq
    simp only [splitNN, hsplit]
    rw [if_neg h]
    rw [heq.1, ← heq.2]
  | case5 a b rest h hsplit ih =>
    exact absurd hsplit (splitNN_ne_nil _)

theorem lastNotSpace_cons_cons (c e : Char) (p : PyStr) :
    lastNotSpace (c :: e :: p) = lastNotSpace (e :: p) := by
  unfold lastNotSpace
  rw [List.getLast?_cons_cons]

theorem splitNN_append_sep : ∀ (p : PyStr) (l : PyStr), p ≠ [] → noNN p = true →
    lastNotSpace p = true → splitNN (p ++ '\n' :: '\n' :: l) = p :: splitNN l := by
  intro p
  induction p with
  | nil => intro l hne _ _; exact absurd rfl hne
  | cons c p' ih =>
    intro l _ hnn hlast
    cases p' with
    | nil =>
      have hc : pySpace c = false := by
        unfold lastNotSpace at hlast
        simpa using hlast
      have hcn : ¬ c = '\n' := by
        intro hh
        rw [hh] at hc
        exact absurd hc (by decide)
      show splitNN (c :: '\n' :: '\n' :: l) = [c] :: splitNN l
      conv_lhs => rw [splitNN]
      rw [if_neg (by simp [hcn])]
      have hinner : splitNN ('\n' :: '\n' :: l) = [] :: splitNN l := by
        conv_lhs => rw [splitNN]
        rw [if_pos (by decide)]
      rw [hinner]
    | cons e p'' =>
      rw [noNN_cons2, Bool.and_eq_true] at hnn
      obtain ⟨hg, hnn'⟩ := hnn
      have hguard : ¬ ((decide (c = '\n') && decide (e = '\n')) = true) := by
        rw [Bool.not_eq_true' ] at hg
        rw [hg]
        simp
      have hlast' : lastNotSpace (e :: p'') = true := by
        rw [← lastNotSpace_cons_cons c]
        exact hlast
      have hih := ih l (by simp) hnn' hlast'
      show splitNN (c :: e :: (p'' ++ '\n' :: '\n' :: l)) = (c :: e :: p'') :: splitNN l
      conv_lhs => rw [splitNN]
      rw [if_neg hguard]
      have hcons : e :: (p'' ++ '\n' :: '\n' :: l) = (e :: p'') ++ '\n' :: '\n' :: l := rfl
      rw [hcons, hih]

theorem joinNN_cons2 (p q : PyStr) (g : List PyStr) :
    joinNN (p :: q :: g) = p ++ '\n' :: '\n' :: joinNN (q :: g) := rfl

theorem joinNN_ne_nil : ∀ g : List PyStr, g ≠ [] → (∀ p ∈ g, p ≠ []) →
    joinNN g ≠ [] := by
  intro g
  cases g with
  | nil => intro h _; exact absurd rfl h
  | cons p g' =>
    intro _ hp
    cases g' with
    | nil =>
      show p ≠ []
      exact hp p (List.mem_cons_self _ _)
    | cons q g'' =>
      rw [joinNN_cons2]
      have : p ≠ [] := hp p (List.mem_cons_self _ _)
      cases p with
      | nil => exact absurd rfl this
      | cons x xs => simp

theorem joinNN_append : ∀ (g h : List PyStr), g ≠ [] → h ≠ [] →
    joinNN (g ++ h) = joinNN g ++ '\n' :: '\n' :: joinNN h := by
  intro g
  induction g with
  | nil => intro h hne _; exact absurd rfl hne
  | cons p g' ih =>
    intro h _ hh
    cases g' with
    | nil =>
      cases h with
      | nil => exact absurd rfl hh
      | cons q h' =>
        show joinNN (p :: q :: h') = joinNN [p] ++ '\n' :: '\n' :: joinNN (q :: h')
        rw [joinNN_cons2]
        rfl
    | cons r g'' =>
      have hgne : (r :: g'') ++ h ≠ [] := by simp
      show joinNN (p :: ((r :: g'') ++ h)) = _
      have hshape : ∃ x xs, (r :: g'') ++ h = x :: xs := ⟨r, g'' ++ h, rfl⟩
      obtain ⟨x, xs, hx⟩ := hshape
      rw [hx, joinNN_cons2, ← hx, ih h (by simp) hh, joinNN_cons2]
      simp [List.append_assoc]

theorem joinNN_flatten : ∀ groups : List (List PyStr), (∀ g ∈ groups, g ≠ []) →
    joinNN (groups.map joinNN) = joinNN groups.flatten := by
  intro groups
  induction groups with
  | nil => intro _; rfl
  | cons g gs ih =>
    intro hne
    cases gs with
    | nil =>
      show joinNN [joinNN g] = joinNN (g ++ [])
      rw [List.append_nil]
      rfl
    | cons g2 gs' =>
      have hg : g ≠ [] := hne g (List.mem_cons_self _ _)
      have hflat : (g2 :: gs').flatten ≠ [] := by
        have hg2 : g2 ≠ [] := hne g2 (List.mem_cons_of_mem _ (List.mem_cons_self _ _))
        show g2 ++ (gs').flatten ≠ []
        cases g2 with
        | nil => exact absurd rfl hg2
        | cons x xs => simp
      show joinNN (joinNN g :: (g2 :: gs').map joinNN) = joinNN (g ++ (g2 :: gs').flatten)
      rw [joinNN_append g (g2 :: gs').flatten hg hflat]
      have hmapshape : (g2 :: gs').map joinNN = joinNN g2 :: gs'.map joinNN := rfl
      rw [hmapshape, joinNN_cons2, ← hmapshape]
      rw [ih fun g' hg' => hne g' (List.mem_cons_of_mem _ hg')]

theorem headNotSpace_append (x y : PyStr) (hx : x ≠ []) :
    headNotSpace (x ++ y) = headNotSpace x := by
  cases x with
  | nil => exact absurd rfl hx
  | cons c xs => rfl

theorem head?_append_ne_nil (x y : PyStr) (hx : x ≠ []) :
    (x ++ y).head? = x.head? := by
  cases x with
  | nil => exact absurd rfl hx
  | cons c xs => rfl

theorem lastNotSpace_append (x y : PyStr) (hy : y ≠ []) :
    lastNotSpace (x ++ y) = lastNotSpace y := by
  unfold lastNotSpace
  rw [← List.head?_reverse, ← List.head?_reverse, List.reverse_append]
  rw [head?_append_ne_nil]
  simpa using hy

theorem headNotSpace_dropWhile : ∀ l : PyStr, headNotSpace (l.dropWhile pySpace) = true := by
  intro l
  induction l with
  | nil => rfl
  | cons c rest ih =>
    rw [List.dropWhile_cons]
    by_cases hc : pySpace c = true
    · rw [if_pos hc]
      exact ih
    · rw [if_neg hc]
      unfold headNotSpace
      rw [Bool.not_eq_true] at hc
      simp [hc]

theorem dropWhile_length_le : ∀ l : PyStr, (l.dropWhile pySpace).length ≤ l.length := by
  intro l
  induction l with
  | nil => exact Nat.le_refl 0
  | cons c rest ih =>
    rw [List.dropWhile_cons]
    by_cases hc : pySpace c = true
    · rw [if_pos hc]
      exact Nat.le_trans ih (Nat.le_succ _)
    · rw [if_neg hc]

theorem dropWhile_length_eq : ∀ l : PyStr,
    (l.dropWhile pySpace).length = l.length → l.dropWhile pySpace = l := by
  intro l
  cases l with
  | nil => intro _; rfl
  | cons c rest =>
    intro h
    rw [List.dropWhile_cons] at h ⊢
    by_cases hc : pySpace c = true
    · rw [if_pos hc] at h
      have := dropWhile_length_le rest
      rw [List.length_cons] at h
      omega
    · rw [if_neg hc]

theorem pyTrim_length_le (s : PyStr) : (pyTrim s).length ≤ s.length := by
  unfold pyTrim
  rw [List.length_reverse]
  refine Nat.le_trans (dropWhile_length_le _) ?_
  rw [List.length_reverse]
  exact dropWhile_length_le _

theorem dropWhile_eq_self_of_head (p : PyStr) (h : headNotSpace p = true) :
    p.dropWhile pySpace = p := by
  cases p with
  | nil => rfl
  | cons c rest =>
    rw [List.dropWhile_cons]
    unfold headNotSpace at h
    simp only [List.head?_cons, Bool.not_eq_true'] at h
    rw [h]
    simp

theorem pyTrim_eq_self (p : PyStr) (h1 : headNotSpace p = true)
    (h2 : lastNotSpace p = true) : pyTrim p = p := by
  unfold pyTrim
  rw [dropWhile_eq_self_of_head p h1]
  have hrev : headNotSpace p.reverse = true := by
    unfold headNotSpace
    rw [List.head?_reverse]
    exact h2
  rw [dropWhile_eq_self_of_head _ hrev, List.reverse_reverse]

theorem trimmed_parts (p : PyStr) (ht : pyTrim p = p) :
    headNotSpace p = true ∧ lastNotSpace p = true := by
  have hlen : (pyTrim p).length = p.length := by rw [ht]
  have hA : (p.dropWhile pySpace).length = p.length := by
    have h1 : (pyTrim p).length ≤ ((p.dropWhile pySpace).reverse.dropWhile pySpace).length := by
      unfold pyTrim
      rw [List.length_reverse]
    have h2 : ((p.dropWhile pySpace).reverse.dropWhile pySpace).length
        ≤ (p.dropWhile pySpace).length := by
      refine Nat.le_trans (dropWhile_length_le _) ?_
      rw [List.length_reverse]
    have h3 := dropWhile_length_le p
    omega
  have hAeq : p.dropWhile pySpace = p := dropWhile_length_eq p hA
  constructor
  · rw [← hAeq]
    exact headNotSpace_dropWhile p
  · have hB : ((p.dropWhile pySpace).reverse.dropWhile pySpace).length
        = (p.dropWhile pySpace).reverse.length := by
      have h1 : (pyTrim p).length = ((p.dropWhile pySpace).reverse.dropWhile pySpace).length := by
        unfold pyTrim
        rw [List.length_reverse]
      have h2 : (p.dropWhile pySpace).reverse.length = p.length := by
        rw [List.length_reverse, hA]
      omega
    have hBeq := dropWhile_length_eq _ hB
    have hprev : p.reverse = (p.dropWhile pySpace).reverse.dropWhile pySpace := by
      rw [hBeq, hAeq]
    have hhead : headNotSpace p.reverse = true := by
      rw [hprev]
      exact headNotSpace_dropWhile _
    unfold lastNotSpace
    rw [← List.head?_reverse]
    unfold headNotSpace at hhead
    exact hhead

theorem splitNN_joinNN_of : ∀ ps : List PyStr, ps ≠ [] →
    (∀ p ∈ ps, p ≠ []) → (∀ p ∈ ps, noNN p = true) →
    (∀ p ∈ ps, lastNotSpace p = true) →
    splitNN (joinNN ps) = ps := by
  intro ps
  induction ps with
  | nil => intro h _ _ _; exact absurd rfl h
  | cons p ps' ih =>
    intro _ h1 h2 h3
    cases ps' with
    | nil =>
      show splitNN (joinNN [p]) = [p]
      exact splitNN_of_noNN p (h2 p (List.mem_cons_self _ _))
    | cons q ps'' =>
      rw [joinNN_cons2]
      rw [splitNN_append_sep p (joinNN (q :: ps''))
        (h1 p (List.mem_cons_self _ _)) (h2 p (List.mem_cons_self _ _))
        (h3 p (List.mem_cons_self _ _))]
      rw [ih (by simp)
        (fun r hr => h1 r (List.mem_cons_of_mem _ hr))
        (fun r hr => h2 r (List.mem_cons_of_mem _ hr))
        (fun r hr => h3 r (List.mem_cons_of_mem _ hr))]

theorem pyTrim_nil : pyTrim [] = [] := rfl

theorem pythonParas_joinNN (ps : List PyStr)
    (h1 : ∀ p ∈ ps, pyTrim p = p) (h2 : ∀ p ∈ ps, pyTrim p ≠ [])
    (h3 : ∀ p ∈ ps, noNN p = true) :
    pythonParas (joinNN ps) = ps := by
  have hne : ∀ p ∈ ps, p ≠ [] := by
    intro p hp hnil
    apply h2 p hp
    rw [hnil, pyTrim_nil]
  have hlast : ∀ p ∈ ps, lastNotSpace p = true := by
    intro p hp
    exact (trimmed_parts p (h1 p hp)).2
  cases ps with
  | nil => rfl
  | cons p ps' =>
    unfold pythonParas
    rw [splitNN_joinNN_of (p :: ps') (by simp) hne h3 hlast]
    rw [List.filter_eq_self.mpr]
    intro a ha
    simpa using h2 a ha

theorem chunkLoop_nil (maxChars : Nat) (current : PyStr) (acc : List PyStr) :
    chunkLoop maxChars [] current acc
      = if current ≠ [] then acc ++ [pyTrim current] else acc := rfl

theorem chunkLoop_cons (maxChars : Nat) (para current : PyStr) (rest : List PyStr)
    (acc : List PyStr) :
    chunkLoop maxChars (para :: rest) current acc
      = if current.length + para.length + 2 > maxChars then
          chunkLoop maxChars rest para (if current ≠ [] then acc ++ [pyTrim current] else acc)
        else
          chunkLoop maxChars rest
            (if current ≠ [] then current ++ '\n' :: '\n' :: para else para) acc := rfl

theorem chunkLoop_groups (maxChars : Nat) :
    ∀ (paras gcur acc : List PyStr),
      (∀ p ∈ paras, p ≠ []) →
      (∀ p ∈ gcur, p ≠ []) →
      ((joinNN gcur).length ≤ maxChars ∨ ∃ q, gcur = [q]) →
      ∃ groups : List (List PyStr),
        groups.flatten = gcur ++ paras
        ∧ (∀ g ∈ groups, g ≠ [])
        ∧ (∀ g ∈ groups, (joinNN g).length ≤ maxChars ∨ ∃ q, g = [q])
        ∧ chunkLoop maxChars paras (joinNN gcur) acc
          = acc ++ groups.map (fun g => pyTrim (joinNN g)) := by
  intro paras
  induction paras with
  | nil =>
    intro gcur acc _ helem hbound
    cases gcur with
    | nil =>
      refine ⟨[], rfl, by simp, by simp, ?_⟩
      rw [chunkLoop_nil]
      simp [joinNN]
    | cons p g' =>
      refine ⟨[p :: g'], by simp, by simp, ?_, ?_⟩
      · intro g hg
        rw [List.mem_singleton] at hg
        rw [hg]
        exact hbound
      · rw [chunkLoop_nil]
        rw [if_pos (joinNN_ne_nil (p :: g') (by simp) helem)]
        simp
  | cons para rest ih =>
    intro gcur acc hpar helem hbound
    have hpara : para ≠ [] := hpar para (List.mem_cons_self _ _)
    have hrest : ∀ p ∈ rest, p ≠ [] := fun p hp => hpar p (List.mem_cons_of_mem _ hp)
    rw [chunkLoop_cons]
    by_cases hcond : (joinNN gcur).length + para.length + 2 > maxChars
    · rw [if_pos hcond]
      by_cases hg : gcur = []
      · subst hg
        rw [if_neg (by simp [joinNN])]
        obtain ⟨groups, hflat, hne, hbnd, heq⟩ :=
          ih [para] acc hrest (by simpa using hpara) (Or.inr ⟨para, rfl⟩)
        refine ⟨groups, ?_, hne, hbnd, ?_⟩
        · rw [hflat]
          rfl
        · have heq' : chunkLoop maxChars rest para acc
              = acc ++ groups.map (fun g => pyTrim (joinNN g)) := heq
          exact heq'
      · have hjne : joinNN gcur ≠ [] := joinNN_ne_nil gcur hg helem
        rw [if_pos hjne]
        obtain ⟨groups, hflat, hne, hbnd, heq⟩ :=
          ih [para] (acc ++ [pyTrim (joinNN gcur)]) hrest (by simpa using hpara)
            (Or.inr ⟨para, rfl⟩)
        refine ⟨gcur :: groups, ?_, ?_, ?_, ?_⟩
        · show gcur ++ groups.flatten = gcur ++ (para :: rest)
          rw [hflat]
          rfl
        · intro g hg'
          rw [List.mem_cons] at hg'
          rcases hg' with hg' | hg'
          · rw [hg']; exact hg
          · exact hne g hg'
        · intro g hg'
          rw [List.mem_cons] at hg'
          rcases hg' with hg' | hg'
          · rw [hg']; exact hbound
          · exact hbnd g hg'
        · have heq' : chunkLoop maxChars rest para (acc ++ [pyTrim (joinNN gcur)])
              = (acc ++ [pyTrim (joinNN gcur)]) ++ groups.map (fun g => pyTrim (joinNN g)) := heq
          rw [heq', List.map_cons, List.append_assoc]
          rfl
    · rw [if_neg hcond]
      by_cases hg : gcur = []
      · subst hg
        rw [if_neg (by simp [joinNN])]
        obtain ⟨groups, hflat, hne, hbnd, heq⟩ :=
          ih [para] acc hrest (by simpa using hpara) (Or.inr ⟨para, rfl⟩)
        refine ⟨groups, ?_, hne, hbnd, ?_⟩
        · rw [hflat]
          rfl
        · have heq' : chunkLoop maxChars rest para acc
              = acc ++ groups.map (fun g => pyTrim (joinNN g)) := heq
          exact heq'
      · have hjne : joinNN gcur ≠ [] := joinNN_ne_nil gcur hg helem
        rw [if_pos hjne]
        have hjoin : joinNN gcur ++ '\n' :: '\n' :: para = joinNN (gcur ++ [para]) := by
          rw [joinNN_append gcur [para] hg (by simp)]
          rfl
        have helem' : ∀ p ∈ gcur ++ [para], p ≠ [] := by
          intro p hp
          rw [List.mem_append] at hp
          rcases hp with hp | hp
          · exact helem p hp
          · rw [List.mem_singleton] at hp
            rw [hp]
            exact hpara
        have hbound' : (joinNN (gcur ++ [para])).length ≤ maxChars ∨ ∃ q, gcur ++ [para] = [q] := by
          left
          rw [joinNN_append gcur [para] hg (by simp)]
          rw [List.length_append]
          have h2 : ('\n' :: '\n' :: joinNN [para]).length = para.length + 2 := by
            show ('\n' :: '\n' :: para).length = para.length + 2
            simp
          rw [h2]
          omega
        obtain ⟨groups, hflat, hne, hbnd, heq⟩ := ih (gcur ++ [para]) acc hrest helem' hbound'
        refine ⟨groups, ?_, hne, hbnd, ?_⟩
        · rw [hflat, List.append_assoc]
          rfl
        · rw [hjoin]
          exact heq

/-- The greedy paragraph-packing structure of `chunk_text`: the chunks are
exactly the stripped blank-line joins of a partition of the non-blank
paragraph sequence into consecutive non-empty groups — no paragraph is
ever split across chunks — and any group whose join exceeds `maxChars` is
a single (over-long) paragraph. -/
theorem chunk_text_structure (text : PyStr) (maxChars : Nat) :
    ∃ groups : List (List PyStr),
      groups.flatten = pythonParas text
      ∧ (∀ g ∈ groups, g ≠ [])
      ∧ (∀ g ∈ groups, (joinNN g).length ≤ maxChars ∨ ∃ q, g = [q])
      ∧ chunk_text text maxChars = groups.map (fun g => pyTrim (joinNN g)) := by
  have hne : ∀ p ∈ pythonParas text, p ≠ [] := by
    intro p hp hnil
    unfold pythonParas at hp
    rw [List.mem_filter] at hp
    rw [hnil] at hp
    exact (by simpa using hp.2 : ¬ pyTrim [] = []) rfl
  obtain ⟨groups, hflat, hg1, hg2, heq⟩ :=
    chunkLoop_groups maxChars (pythonParas text) [] [] hne (by simp) (by simp [joinNN])
  refine ⟨groups, by simpa using hflat, hg1, hg2, ?_⟩
  have heq' : chunk_text text maxChars = [] ++ groups.map (fun g => pyTrim (joinNN g)) := heq
  simpa using heq'

theorem headNotSpace_joinNN : ∀ g : List PyStr, g ≠ [] → (∀ p ∈ g, p ≠ []) →
    (∀ p ∈ g, headNotSpace p = true) → headNotSpace (joinNN g) = true := by
  intro g
  cases g with
  | nil => intro h _ _; exact absurd rfl h
  | cons p g' =>
    intro _ hne hh
    cases g' with
    | nil => exact hh p (List.mem_cons_self _ _)
    | cons q g'' =>
      rw [joinNN_cons2]
      rw [headNotSpace_append p _ (hne p (List.mem_cons_self _ _))]
      exact hh p (List.mem_cons_self _ _)

theorem lastNotSpace_joinNN : ∀ g : List PyStr, g ≠ [] → (∀ p ∈ g, p ≠ []) →
    (∀ p ∈ g, lastNotSpace p = true) → lastNotSpace (joinNN g) = true := by
  intro g
  induction g with
  | nil => intro h _ _; exact absurd rfl h
  | cons p g' ih =>
    intro _ hne hl
    cases g' with
    | nil => exact hl p (List.mem_cons_self _ _)
    | cons q g'' =>
      rw [joinNN_cons2]
      have hjne : joinNN (q :: g'') ≠ [] :=
        joinNN_ne_nil _ (by simp) (fun r hr => hne r (List.mem_cons_of_mem _ hr))
      rw [lastNotSpace_append p _ (by simp)]
      have hsh : '\n' :: '\n' :: joinNN (q :: g'')
          = ['\n', '\n'] ++ joinNN (q :: g'') := rfl
      rw [hsh, lastNotSpace_append _ _ hjne]
      exact ih (by simp) (fun r hr => hne r (List.mem_cons_of_mem _ hr))
        (fun r hr => hl r (List.mem_cons_of_mem _ hr))

/-- Claim C3, counterexample: `chunk_text` strips each chunk, so a
paragraph carrying trailing whitespace is not reconstructed exactly:
for `"a \n\nbb"` with `max_chars = 3` the paragraphs are `["a ", "bb"]`
but re-joining the chunks with blank lines yields the paragraph sequence
`["a", "bb"]` — the trailing space of the first paragraph is lost. -/
theorem chunk_text_strip_counterexample :
    chunk_text (pys "a \n\nbb") 3 = [pys "a", pys "bb"]
    ∧ pythonParas (pys "a \n\nbb") = [pys "a ", pys "bb"]
    ∧ pythonParas (joinNN (chunk_text (pys "a \n\nbb") 3)) = [pys "a", pys "bb"]
    ∧ pythonParas (joinNN (chunk_text (pys "a \n\nbb") 3)) ≠ pythonParas (pys "a \n\nbb") := by
  refine ⟨rfl, rfl, rfl, ?_⟩
  intro h
  have h1 : pythonParas (joinNN (chunk_text (pys "a \n\nbb") 3)) = [pys "a", pys "bb"] := rfl
  have h2 : pythonParas (pys "a \n\nbb") = [pys "a ", pys "bb"] := rfl
  rw [h1, h2] at h
  simp [pys] at h

/-- Claim C3, amended: for any input text and `max_chars`, `chunk_text`
never splits a paragraph mid-way — the chunks are the blank-line joins of
a partition of the non-blank paragraph sequence into consecutive,
non-empty groups; no chunk's character length exceeds `max_chars` unless
the chunk is a single (stripped) paragraph that alone exceeds it; empty
input yields an empty sequence; and — provided no paragraph carries
leading or trailing whitespace — re-joining the produced chunks with blank
lines reconstructs the original non-blank paragraph sequence exactly (in
general each chunk is stripped, so boundary paragraphs are recovered only
up to trimming of leading/trailing whitespace). -/
theorem chunk_text_spec (text : PyStr) (maxChars : Nat)
    (htrim : ∀ p ∈ pythonParas text, pyTrim p = p) :
    (text = [] → chunk_text text maxChars = [])
    ∧ (∃ groups : List (List PyStr),
        groups.flatten = pythonParas text
        ∧ (∀ g ∈ groups, g ≠ [])
        ∧ chunk_text text maxChars = groups.map joinNN)
    ∧ (∀ c ∈ chunk_text text maxChars,
        c.length ≤ maxChars ∨ ∃ p ∈ pythonParas text, c = pyTrim p ∧ c.length ≤ p.length)
    ∧ pythonParas (joinNN (chunk_text text maxChars)) = pythonParas text := by
  obtain ⟨groups, hflat, hgne, hbnd, heq⟩ := chunk_text_structure text maxChars
  have hmemtrim : ∀ p ∈ pythonParas text, pyTrim p ≠ [] := by
    intro p hp
    unfold pythonParas at hp
    rw [List.mem_filter] at hp
    simpa using hp.2
  have hpne : ∀ p ∈ pythonParas text, p ≠ [] := by
    intro p hp h
    exact hmemtrim p hp (by rw [h, pyTrim_nil])
  have hnnp : ∀ p ∈ pythonParas text, noNN p = true := by
    intro p hp
    unfold pythonParas at hp
    rw [List.mem_filter] at hp
    exact noNN_splitNN text p hp.1
  have hmemflat : ∀ g ∈ groups, ∀ p ∈ g, p ∈ pythonParas text := by
    intro g hg p hp
    rw [← hflat]
    exact List.mem_flatten.mpr ⟨g, hg, hp⟩
  have htrimjoin : ∀ g ∈ groups, pyTrim (joinNN g) = joinNN g := by
    intro g hg
    apply pyTrim_eq_self
    · apply headNotSpace_joinNN g (hgne g hg)
      · intro p hp
        exact hpne p (hmemflat g hg p hp)
      · intro p hp
        exact (trimmed_parts p (htrim p (hmemflat g hg p hp))).1
    · apply lastNotSpace_joinNN g (hgne g hg)
      · intro p hp
        exact hpne p (hmemflat g hg p hp)
      · intro p hp
        exact (trimmed_parts p (htrim p (hmemflat g hg p hp))).2
  have hmapeq : chunk_text text maxChars = groups.map joinNN := by
    rw [heq]
    apply List.map_congr_left
    intro g hg
    exact htrimjoin g hg
  refine ⟨?_, ⟨groups, hflat, hgne, hmapeq⟩, ?_, ?_⟩
  · intro h
    rw [h]
    rfl
  · intro c hc
    rw [heq, List.mem_map] at hc
    obtain ⟨g, hg, hcg⟩ := hc
    rcases hbnd g hg with hb | ⟨q, hq⟩
    · left
      rw [← hcg]
      exact Nat.le_trans (pyTrim_length_le _) hb
    · right
      refine ⟨q, hmemflat g hg q (by rw [hq]; exact List.mem_cons_self _ _), ?_, ?_⟩
      · rw [← hcg, hq]
        rfl
      · rw [← hcg, hq]
        exact pyTrim_length_le q
  · rw [hmapeq, joinNN_flatten groups hgne, hflat]
    exact pythonParas_joinNN (pythonParas text) htrim hmemtrim hnnp

/-- Claim C3, witness: `"aa\n\nbb\n\ncc"` with `max_chars = 6` packs into
chunks `["aa\n\nbb", "cc"]` — a consecutive partition of the paragraphs,
every chunk within the cap, and re-joining reconstructs the paragraph
sequence exactly. -/
theorem chunk_text_spec_witness :
    ((pys "aa\n\nbb\n\ncc") = [] → chunk_text (pys "aa\n\nbb\n\ncc") 6 = [])
    ∧ (∃ groups : List (List PyStr),
        groups.flatten = pythonParas (pys "aa\n\nbb\n\ncc")
        ∧ (∀ g ∈ groups, g ≠ [])
        ∧ chunk_text (pys "aa\n\nbb\n\ncc") 6 = groups.map joinNN)
    ∧ (∀ c ∈ chunk_text (pys "aa\n\nbb\n\ncc") 6,
        c.length ≤ 6 ∨ ∃ p ∈ pythonParas (pys "aa\n\nbb\n\ncc"),
          c = pyTrim p ∧ c.length ≤ p.length)
    ∧ pythonParas (joinNN (chunk_text (pys "aa\n\nbb\n\ncc") 6))
      = pythonParas (pys "aa\n\nbb\n\ncc") :=
  chunk_text_spec (pys "aa\n\nbb\n\ncc") 6 (by decide)

end BookFactory
